import Mathlib

/-!
Verification of CSVTransformer (jferard/CSVTransformer) against its
natural-language specification.

The development shallowly embeds the Python sources:
  * `src/csv_transformer/simple_eval.py` — tokenizer front end, shunting-yard
    instruction builder (`ShuntingYard`), stack evaluator (`evaluate`),
    `eval_expr`;
  * `src/csv_transformer/transformation.py` — `Transformation` (typing,
    extension, mapping, filtering, grouping, aggregation), the column builders
    and `improve_header`;
  * `src/csv_transformer/__init__.py` — the executor's ordering step
    (`has_order` / `create_key` are called there but defined nowhere in the
    sources, so that part is modelled from the spec).

Python exceptions are modelled by `Except Err`: `Err.keyError` stands for
`KeyError` (the only exception the sources catch selectively) and
`Err.typeError` for every other exception (`TypeError`, `ValueError`,
`ZeroDivisionError`, `IndexError`, ...).  Python numbers (int and float) are
modelled by `ℚ`: every numeric computation a claim exercises is exact, and
Python compares `4.0 == 4` as equal just as `ℚ` does.  Python dicts, which
preserve insertion order, are modelled by association lists with
Python-faithful insertion (`pyInsert`: overwrite in place or append).
-/

/-- Python exceptions, split exactly as the sources' `except` clauses need:
`keyError` is `KeyError`; `typeError` stands for every other raised exception
(`TypeError`, `ValueError`, `ZeroDivisionError`, `IndexError`, ...). -/
inductive Err where
  | keyError : Err
  | typeError : Err
deriving DecidableEq, Repr

/-- A dynamic Python value as the claims exercise it: a number (`int`/`float`
unified as `ℚ`), a string, or a boolean. -/
inductive Value where
  | num : ℚ → Value
  | str : String → Value
  | bool : Bool → Value
deriving DecidableEq, Repr

/-- Python truthiness (`bool(x)`): a number is truthy iff nonzero, a string
iff nonempty. -/
def truthy : Value → Bool
  | .num q => decide (q ≠ 0)
  | .str s => decide (s ≠ "")
  | .bool b => b

/-- Numeric coercion used by Python's arithmetic operators: `bool` acts as the
integer 0 or 1, strings do not coerce. -/
def toNum : Value → Option ℚ
  | .num q => some q
  | .bool b => some (if b then 1 else 0)
  | .str _ => none

/-! ## Kernel-computable rational arithmetic

The Lean kernel cannot reduce `Rat.add`, `Rat.mul` or `Rat.inv` (their
normalisation step is compiled by well-founded recursion), so concrete
evaluations of the embedded program would get stuck.  The operations below
compute the same rationals through a structural-fuel Euclidean algorithm and
are proved equal to Mathlib's field operations, which the correctness proofs
use. -/

/-- Euclid's algorithm on structural fuel (one unit per step; the first
argument strictly decreases, so `x + 1` units always suffice). -/
def gcdF : ℕ → ℕ → ℕ → ℕ
  | 0, _, y => y
  | _ + 1, 0, y => y
  | fuel + 1, x + 1, y => gcdF fuel (y % (x + 1)) (x + 1)

/-- Kernel-computable `Nat.gcd`. -/
def ngcd (x y : ℕ) : ℕ := gcdF (x + 1) x y

theorem gcdF_eq_gcd : ∀ (fuel x y : ℕ), x < fuel → gcdF fuel x y = Nat.gcd x y
  | 0, _, _, h => absurd h (Nat.not_lt_zero _)
  | _ + 1, 0, y, _ => by simp [gcdF]
  | fuel + 1, x + 1, y, h => by
    rw [gcdF, gcdF_eq_gcd fuel (y % (x + 1)) (x + 1)
      (lt_of_lt_of_le (Nat.mod_lt _ (Nat.succ_pos x)) (Nat.lt_succ_iff.mp h))]
    exact (Nat.gcd_rec _ _).symm

theorem ngcd_eq_gcd (x y : ℕ) : ngcd x y = Nat.gcd x y :=
  gcdF_eq_gcd _ _ _ (Nat.lt_succ_self x)

/-- Build the reduced rational `n / d` without well-founded recursion. -/
def mkQ (n : ℤ) (d : ℕ) : ℚ :=
  if hd : d = 0 then 0
  else
    let g := ngcd n.natAbs d
    have hg : g = Nat.gcd n.natAbs d := ngcd_eq_gcd _ _
    have hgpos : 0 < g := by
      rw [hg]
      exact Nat.gcd_pos_of_pos_right _ (Nat.pos_of_ne_zero hd)
    have hgd : g ∣ d := hg ▸ Nat.gcd_dvd_right _ _
    have hgn : (g : ℤ) ∣ n := by
      rw [hg]
      exact Int.dvd_natAbs.mp (Int.natCast_dvd_natCast.mpr (Nat.gcd_dvd_left _ _))
    ⟨n / g, d / g,
      Nat.ne_of_gt (Nat.div_pos (Nat.le_of_dvd (Nat.pos_of_ne_zero hd) hgd) hgpos),
      by
        rw [Int.natAbs_ediv _ _ hgn, Int.natAbs_ofNat, hg]
        exact Nat.coprime_div_gcd_div_gcd
          (hg ▸ hgpos : 0 < Nat.gcd n.natAbs d)⟩

theorem mkQ_eq (n : ℤ) (d : ℕ) : mkQ n d = (n : ℚ) / (d : ℚ) := by
  by_cases hd : d = 0
  · subst hd
    simp [mkQ]
  · have hg : ngcd n.natAbs d = Nat.gcd n.natAbs d := ngcd_eq_gcd _ _
    have hgpos : 0 < ngcd n.natAbs d := by
      rw [hg]
      exact Nat.gcd_pos_of_pos_right _ (Nat.pos_of_ne_zero hd)
    have hgd : ngcd n.natAbs d ∣ d := hg ▸ Nat.gcd_dvd_right _ _
    have hgn : ((ngcd n.natAbs d : ℕ) : ℤ) ∣ n := by
      rw [hg]
      exact Int.dvd_natAbs.mp (Int.natCast_dvd_natCast.mpr (Nat.gcd_dvd_left _ _))
    have h1 : (mkQ n d).num = n / ((ngcd n.natAbs d : ℕ) : ℤ) := by
      rw [mkQ]
      simp [hd]
    have h2 : (mkQ n d).den = d / ngcd n.natAbs d := by
      rw [mkQ]
      simp [hd]
    rw [← Rat.num_div_den (mkQ n d), h1, h2]
    generalize hG : ngcd n.natAbs d = G at hgpos hgd hgn ⊢
    obtain ⟨n', hn'⟩ := hgn
    obtain ⟨d', hd'⟩ := hgd
    rw [hn', hd']
    rw [Int.mul_ediv_cancel_left _
        (by exact_mod_cast Nat.pos_iff_ne_zero.mp hgpos),
      Nat.mul_div_cancel_left _ hgpos]
    push_cast
    rw [mul_div_mul_left _ _
      (by exact_mod_cast Nat.pos_iff_ne_zero.mp hgpos : (G : ℚ) ≠ 0)]

/-- Kernel-computable rational multiplication. -/
def qMul (a b : ℚ) : ℚ := mkQ (a.num * b.num) (a.den * b.den)

/-- Kernel-computable rational addition. -/
def qAdd (a b : ℚ) : ℚ := mkQ (a.num * b.den + b.num * a.den) (a.den * b.den)

/-- Kernel-computable rational subtraction. -/
def qSub (a b : ℚ) : ℚ := mkQ (a.num * b.den - b.num * a.den) (a.den * b.den)

/-- Kernel-computable rational inverse. -/
def qInv (a : ℚ) : ℚ := mkQ (a.num.sign * a.den) a.num.natAbs

/-- Kernel-computable rational division. -/
def qDiv (a b : ℚ) : ℚ := qMul a (qInv b)

/-- Kernel-computable rational power by a natural. -/
def qPowN (a : ℚ) : ℕ → ℚ
  | 0 => 1
  | n + 1 => qMul a (qPowN a n)

/-- Kernel-computable rational power by an integer. -/
def qZpow (a : ℚ) : ℤ → ℚ
  | .ofNat n => qPowN a n
  | .negSucc n => qInv (qPowN a (n + 1))

theorem num_div_den_q (a : ℚ) : ((a.num : ℚ)) / ((a.den : ℚ)) = a :=
  Rat.num_div_den a

theorem den_cast_ne_zero (a : ℚ) : ((a.den : ℚ)) ≠ 0 := by
  exact_mod_cast a.den_nz

theorem qMul_eq (a b : ℚ) : qMul a b = a * b := by
  rw [qMul, mkQ_eq]
  conv_rhs => rw [← num_div_den_q a, ← num_div_den_q b]
  push_cast
  rw [div_mul_div_comm]

theorem qAdd_eq (a b : ℚ) : qAdd a b = a + b := by
  rw [qAdd, mkQ_eq]
  conv_rhs => rw [← num_div_den_q a, ← num_div_den_q b]
  have ha := den_cast_ne_zero a
  have hb := den_cast_ne_zero b
  push_cast
  field_simp

theorem qSub_eq (a b : ℚ) : qSub a b = a - b := by
  rw [qSub, mkQ_eq]
  conv_rhs => rw [← num_div_den_q a, ← num_div_den_q b]
  have ha := den_cast_ne_zero a
  have hb := den_cast_ne_zero b
  push_cast
  field_simp
  ring

theorem qInv_eq (a : ℚ) : qInv a = a⁻¹ := by
  rw [qInv, mkQ_eq]
  conv_rhs => rw [← num_div_den_q a]
  rw [inv_div]
  rcases lt_trichotomy a.num 0 with h | h | h
  · rw [Int.sign_eq_neg_one_of_neg h]
    have habs : ((a.num.natAbs : ℕ) : ℚ) = -(a.num : ℚ) := by
      rw [Int.cast_natAbs, abs_of_neg h]
      push_cast
      ring
    rw [habs]
    push_cast
    rw [neg_one_mul, neg_div_neg_eq]
  · rw [h]
    simp
  · rw [Int.sign_eq_one_of_pos h]
    have habs : ((a.num.natAbs : ℕ) : ℚ) = (a.num : ℚ) := by
      rw [Int.cast_natAbs, abs_of_pos h]
    rw [habs]
    push_cast
    rw [one_mul]

theorem qDiv_eq (a b : ℚ) : qDiv a b = a / b := by
  rw [qDiv, qMul_eq, qInv_eq, div_eq_mul_inv]

theorem qPowN_eq (a : ℚ) (n : ℕ) : qPowN a n = a ^ n := by
  induction n with
  | zero => simp [qPowN]
  | succ n ih => rw [qPowN, qMul_eq, ih, pow_succ, mul_comm]

theorem qZpow_eq (a : ℚ) (k : ℤ) : qZpow a k = a ^ k := by
  cases k with
  | ofNat n =>
    rw [qZpow, qPowN_eq]
    exact (zpow_natCast a n).symm
  | negSucc n => rw [qZpow, qPowN_eq, qInv_eq, zpow_negSucc]

/-- `operator.add`: numeric addition, or string concatenation
(string repetition and other exotic cases are unreachable for the claims and
raise in this model). -/
def addV : Value → Value → Except Err Value
  | .str s, .str t => .ok (.str (s ++ t))
  | a, b =>
    match toNum a, toNum b with
    | some x, some y => .ok (.num (qAdd x y))
    | _, _ => .error .typeError

/-- Numeric binary operation through `toNum`; anything else raises
`TypeError` as in Python. -/
def arithV (f : ℚ → ℚ → ℚ) (a b : Value) : Except Err Value :=
  match toNum a, toNum b with
  | some x, some y => .ok (.num (f x y))
  | _, _ => .error .typeError

/-- `operator.truediv`: exact division; dividing by zero raises
(`ZeroDivisionError`). -/
def divV (a b : Value) : Except Err Value :=
  match toNum a, toNum b with
  | some x, some y => if y = 0 then .error .typeError else .ok (.num (qDiv x y))
  | _, _ => .error .typeError

/-- Python `%`: `x - y * floor(x / y)` (the sign follows the divisor), zero
divisor raises. -/
def modV (a b : Value) : Except Err Value :=
  match toNum a, toNum b with
  | some x, some y =>
    if y = 0 then .error .typeError
    else .ok (.num (qSub x (qMul y ((⌊qDiv x y⌋ : ℤ) : ℚ))))
  | _, _ => .error .typeError

/-- `operator.pow` on the values the language produces: an integral exponent
gives the exact rational power (`0 ** n` with `n < 0` raises
`ZeroDivisionError`); a fractional exponent would be an irrational float and
is not modelled (no claim exercises it). -/
def powV (a b : Value) : Except Err Value :=
  match toNum a, toNum b with
  | some x, some y =>
    if y.den = 1 then
      if x = 0 ∧ y.num < 0 then .error .typeError
      else .ok (.num (qZpow x y.num))
    else .error .typeError
  | _, _ => .error .typeError

/-- A comparison operator (`<`, `<=`, `>=`, `>`): numbers compare
numerically, strings lexicographically, mixed operands raise `TypeError`. -/
def cmpV (fq : ℚ → ℚ → Bool) (fs : String → String → Bool) (a b : Value) :
    Except Err Value :=
  match a, b with
  | .str s, .str t => .ok (.bool (fs s t))
  | a, b =>
    match toNum a, toNum b with
    | some x, some y => .ok (.bool (fq x y))
    | _, _ => .error .typeError

/-- `operator.eq`: equal numbers (with `bool` as 0/1) or equal strings;
operands of incomparable kinds are simply unequal (Python `==` does not
raise). -/
def eqV (a b : Value) : Except Err Value :=
  match a, b with
  | .str s, .str t => .ok (.bool (s = t))
  | a, b =>
    match toNum a, toNum b with
    | some x, some y => .ok (.bool (x = y))
    | _, _ => .ok (.bool false)

/-- `operator.and_` / `operator.or_` as reached on booleans (the bitwise
integer case is unreachable: `and`/`or` tokenize as NAME tokens and never
resolve to these table entries). -/
def boolOpV (f : Bool → Bool → Bool) (a b : Value) : Except Err Value :=
  match a, b with
  | .bool x, .bool y => .ok (.bool (f x y))
  | _, _ => .error .typeError

/-- The `func` field of `binop_by_name`'s entries, dispatched by operator
name.  `"."`, `"("`, `")"` and `","` carry `func = None`, so applying them
raises `TypeError`. -/
def binOpApply (name : String) (a b : Value) : Except Err Value :=
  if name = "^" then powV a b
  else if name = "*" then arithV qMul a b
  else if name = "/" then divV a b
  else if name = "%" then modV a b
  else if name = "+" then addV a b
  else if name = "-" then arithV qSub a b
  else if name = "<" then cmpV (· < ·) (· < ·) a b
  else if name = "<=" then cmpV (· ≤ ·) (· ≤ ·) a b
  else if name = "==" then eqV a b
  else if name = ">=" then cmpV (· ≥ ·) (· ≥ ·) a b
  else if name = ">" then cmpV (fun x y => y < x) (fun x y => y < x) a b
  else if name = "and" then boolOpV (· && ·) a b
  else if name = "or" then boolOpV (· || ·) a b
  else .error .typeError

/-- The `func` field of the two `PrefixUnOp` entries: `-` is `operator.neg`,
`!` is `operator.not_` (truthiness negation). -/
def prefixApply (name : String) (v : Value) : Except Err Value :=
  if name = "-" then
    match toNum v with
    | some x => .ok (.num (-x))
    | none => .error .typeError
  else if name = "!" then .ok (.bool (! truthy v))
  else .error .typeError

/-- Strip whitespace and parse an optionally signed integer literal,
as Python `int(str)` accepts it. -/
def pyParseInt (s : String) : Except Err ℚ :=
  let l := (s.data.dropWhile Char.isWhitespace).reverse.dropWhile
    Char.isWhitespace |>.reverse
  let core : List Char → Option (List Char) := fun l =>
    match l with
    | '-' :: rest => some rest
    | '+' :: rest => some rest
    | rest => some rest
  match core l with
  | some ds =>
    if ds ≠ [] ∧ ds.all Char.isDigit then
      let n : ℕ := ds.foldl (fun a c => 10 * a + (c.toNat - 48)) 0
      .ok (if l.head? = some '-' then -(n : ℚ) else (n : ℚ))
    else .error .typeError
  | none => .error .typeError

/-- `int(x)`: truncation toward zero for a number, digit parsing for a
string. -/
def intV : List Value → Except Err Value
  | [v] =>
    match v with
    | .num q => .ok (.num ((if 0 ≤ q then (⌊q⌋ : ℤ) else (⌈q⌉ : ℤ)) : ℚ))
    | .bool b => .ok (.num (if b then 1 else 0))
    | .str s => do
      let q ← pyParseInt s
      .ok (.num q)
  | _ => .error .typeError

/-- Fold a two-or-more-argument numeric or string list with `f` (Python
`min`/`max` with several scalar arguments; a single non-iterable argument or
no argument raises `TypeError`). -/
def foldNaryV (fq : ℚ → ℚ → ℚ) (fs : String → String → String) :
    List Value → Except Err Value
  | [] => .error .typeError
  | [_] => .error .typeError
  | v :: vs =>
    match v with
    | .num q =>
      let rec goQ (acc : ℚ) : List Value → Except Err Value
        | [] => .ok (.num acc)
        | .num q :: rest => goQ (fq acc q) rest
        | _ :: _ => .error .typeError
      goQ q vs
    | .str s =>
      let rec goS (acc : String) : List Value → Except Err Value
        | [] => .ok (.str acc)
        | .str t :: rest => goS (fs acc t) rest
        | _ :: _ => .error .typeError
      goS s vs
    | _ => .error .typeError

/-- The `func` fields of the `Function` entries of `prefix_unop_by_name`,
dispatched by function name and applied to the collected argument list.  The
functions a claim evaluates (`min`, `max`, `abs`, `len`, `int`, `if`) are
modelled; the remaining entries delegate to external stdlib code (`math`,
`re`, `datetime`, ...) that no claim evaluates, and raise here. -/
def funcApply (name : String) (args : List Value) : Except Err Value :=
  if name = "min" then foldNaryV min min args
  else if name = "max" then foldNaryV max max args
  else if name = "abs" then
    match args with
    | [v] => (toNum v).elim (.error .typeError) (fun x => .ok (.num |x|))
    | _ => .error .typeError
  else if name = "len" then
    match args with
    | [.str s] => .ok (.num s.length)
    | _ => .error .typeError
  else if name = "int" then intV args
  else if name = "if" then
    match args with
    | [c, x, y] => .ok (if truthy c then x else y)
    | _ => .error .typeError
  else .error .typeError

/-! ## Lexical tokens (`tokenize_expr` and Python's `tokenize` module) -/

/-- A lexical token as the shunting yard consumes it (Python
`tokenize.TokenInfo`, with the leading ENCODING token already consumed by the
`assert` at the top of `ShuntingYard.process`).  A NUMBER token carries its
parsed value (`int(...)` or `float(...)`, unified in `ℚ`); a STRING token
carries its content with the surrounding quotes already stripped
(`current_token.string[1:-1]`). -/
inductive TokenInfo where
  | number : ℚ → TokenInfo
  | string : String → TokenInfo
  | name : String → TokenInfo
  | op : String → TokenInfo
  | newline : TokenInfo
  | endmarker : TokenInfo
deriving DecidableEq, Repr

/-- The kind of an `Op` instance (its concrete Python class). -/
inductive OpKind where
  | binop : OpKind
  | prefixUnOp : OpKind
  | infixUnOp : OpKind
  | function : OpKind
deriving DecidableEq, Repr

/-- An `Op` (simple_eval.py): name, precedence, associativity; its `func`
field is dispatched by name at evaluation time (`binOpApply`, `prefixApply`,
`funcApply`). -/
structure Op where
  kind : OpKind
  name : String
  precedence : ℕ
  left_associative : Bool
deriving DecidableEq, Repr

/-- An element of the shunting yard's stacks and of its output: `Literal`,
`Identifier` and `Op` objects, plus the raw-string sentinels `STOP`
(`"STOP"`), `OPEN_PAREN` (`"("`) and `COMMA` (`","`). -/
inductive Token where
  | literal : Value → Token
  | identifier : String → Token
  | op : Op → Token
  | stop : Token
  | openParen : Token
  | comma : Token
deriving DecidableEq, Repr

/-- The function names of `prefix_unop_by_name` (every `Function` entry of
simple_eval.py's table; their precedence is 1, not left-associative). -/
def functionNames : List String :=
  ["abs", "ceil", "div", "exp", "factorial", "floor", "ln", "log2", "log10",
   "pi", "round", "sign", "sqrt", "random", "randint", "cos", "sin", "tan",
   "acos", "asin", "atan", "format", "len", "lower", "upper", "position",
   "substring", "trim", "max", "min", "avg", "re_match", "re_search",
   "re_first", "int", "float", "strpdate", "strfdate", "str", "date",
   "datetime", "add_years", "add_months", "add_days", "add_hours",
   "add_minutes", "add_seconds", "age", "day", "month", "year", "hour",
   "minute", "second", "if", "case"]

/-- `prefix_unop_by_name` (simple_eval.py): the registered functions plus the
prefix operators `-` and `!` (precedence 2). -/
def prefix_unop_by_name (s : String) : Option Op :=
  if s ∈ functionNames then some ⟨.function, s, 1, false⟩
  else if s = "-" then some ⟨.prefixUnOp, "-", 2, false⟩
  else if s = "!" then some ⟨.prefixUnOp, "!", 2, false⟩
  else none

/-- `binop_by_name` (simple_eval.py): name, precedence and associativity of
every registered binary operator. -/
def binop_by_name (s : String) : Option Op :=
  let tbl : List (String × ℕ × Bool) :=
    [(".", 1, false), ("^", 2, false), ("*", 3, true), ("/", 3, true),
     ("%", 3, true), ("+", 4, true), ("-", 4, true), ("<", 6, true),
     ("<=", 6, true), ("==", 6, true), (">=", 6, true), (">", 6, true),
     ("and", 11, true), ("or", 12, true), ("(", 15, false), (",", 15, false),
     (")", 15, false)]
  (tbl.lookup s).map (fun p => ⟨.binop, s, p.1, p.2⟩)

/-- `infix_unop_by_name` (simple_eval.py): the table is empty. -/
def infix_unop_by_name (_s : String) : Option Op := none

/-! ## The shunting yard (`ShuntingYard`, simple_eval.py) -/

/-- The mutable state of a `ShuntingYard` instance: the operand and operator
stacks (head = Python list end = top) and the `_expect_binop` flag. -/
structure ShuntingYard where
  operand_stack : List Token
  operator_stack : List Token
  expect_binop : Bool
deriving Repr

namespace ShuntingYard

/-- `_has_higher_precedence`: numerically smaller rank binds tighter; on a
tie a non-left-associative incoming operator wins. -/
def has_higher_precedence (cur prev : Op) : Bool :=
  cur.precedence < prev.precedence ||
    (cur.precedence = prev.precedence && ! cur.left_associative)

/-- The loop of `_handle_op`: pop pending operators that bind tighter to the
operand stack (commas are popped but not emitted) until an open-paren marker,
a looser operator, or an empty stack stops it. -/
def handleOpLoop (cur : Op) (opd opr : List Token) : List Token × List Token :=
  match opr with
  | [] => (opd, [])
  | t :: rest =>
    if t = .openParen then (opd, t :: rest)
    else
      match t with
      | .op prev =>
        if has_higher_precedence cur prev then (opd, t :: rest)
        else handleOpLoop cur (t :: opd) rest
      | .comma => handleOpLoop cur opd rest
      | _ => handleOpLoop cur (t :: opd) rest

/-- `_handle_op`: run the pop loop, then push the incoming operator. -/
def handle_op (cur : Op) (st : ShuntingYard) : ShuntingYard :=
  let (opd, opr) := handleOpLoop cur st.operand_stack st.operator_stack
  ⟨opd, .op cur :: opr, st.expect_binop⟩

/-- The loop of `_handle_comma`: pop pending operators to the operand stack
down to (exclusive) the nearest open-paren marker or comma. -/
def handleCommaLoop (opd opr : List Token) : List Token × List Token :=
  match opr with
  | [] => (opd, [])
  | t :: rest =>
    if t = .openParen ∨ t = .comma then (opd, t :: rest)
    else handleCommaLoop (t :: opd) rest

/-- `_handle_comma`: run the loop, then push a comma marker. -/
def handle_comma (st : ShuntingYard) : ShuntingYard :=
  let (opd, opr) := handleCommaLoop st.operand_stack st.operator_stack
  ⟨opd, .comma :: opr, st.expect_binop⟩

/-- The loop of `_handle_close_parenthese` once the operand stack is known
nonempty: pop operators, discarding commas, emitting everything else, until
the matching open paren is found (popping an empty operator stack raises
`IndexError`). -/
def closeParenLoop (opd : List Token) : List Token →
    Except Err (List Token × List Token)
  | [] => .error .typeError
  | t :: rest =>
    if t = .comma then closeParenLoop opd rest
    else if t = .openParen then .ok (opd, rest)
    else closeParenLoop (t :: opd) rest

/-- `_handle_close_parenthese`: a no-op on an empty operand stack (the
`while self._operand_stack` guard), else the pop loop. -/
def handle_close_parenthese (st : ShuntingYard) : Except Err ShuntingYard :=
  if st.operand_stack = [] then .ok st
  else do
    let (opd, opr) ← closeParenLoop st.operand_stack st.operator_stack
    .ok ⟨opd, opr, st.expect_binop⟩

/-- `_get_op`: after an operand an operator token is an infix unary operator
(empty table) or a binary operator; otherwise it is a prefix unary operator.
A name absent from the consulted tables raises `KeyError`. -/
def get_op (expect_binop : Bool) (s : String) : Except Err Op :=
  if expect_binop then
    match infix_unop_by_name s with
    | some op => .ok op
    | none =>
      match binop_by_name s with
      | some op => .ok op
      | none => .error .keyError
  else
    match prefix_unop_by_name s with
    | some op => .ok op
    | none => .error .keyError

/-- One iteration of the token loop of `ShuntingYard.process`, in the
source's dispatch order. -/
def step (st : ShuntingYard) (tok : TokenInfo) : Except Err ShuntingYard :=
  match tok with
  | .number q => .ok ⟨.literal (.num q) :: st.operand_stack, st.operator_stack, true⟩
  | .string s => .ok ⟨.literal (.str s) :: st.operand_stack, st.operator_stack, true⟩
  | .name s =>
    if (prefix_unop_by_name s).isNone then
      -- `_is_identifier`
      .ok ⟨.identifier s :: st.operand_stack, st.operator_stack, true⟩
    else
      -- `_is_function`: push the function, put the parameters stop
      match prefix_unop_by_name s with
      | some op => .ok ⟨.stop :: st.operand_stack, .op op :: st.operator_stack, false⟩
      | none => .error .keyError
  | .op s =>
    if s = ")" then do
      let st' ← handle_close_parenthese st
      .ok ⟨st'.operand_stack, st'.operator_stack, true⟩
    else if s = "(" then
      .ok ⟨st.operand_stack, .openParen :: st.operator_stack, false⟩
    else if s = "," then
      .ok { handle_comma st with expect_binop := false }
    else do
      let cur ← get_op st.expect_binop s
      .ok { handle_op cur st with expect_binop := false }
  | .newline => .ok st
  | .endmarker => .ok st

/-- `ShuntingYard.process`: fold the token loop from the initial state, then
extend the operand stack with the reversed operator stack.  The returned list
is in Python list order (first element first). -/
def process (tokens : List TokenInfo) : Except Err (List Token) := do
  let st ← tokens.foldlM step ⟨[], [], false⟩
  .ok (st.operand_stack.reverse ++ st.operator_stack)

end ShuntingYard

/-! ## The evaluator (`evaluate`, simple_eval.py) -/

/-- The `STOP` sentinel as it lives on the run stack: the raw string
`"STOP"`. -/
def STOPv : Value := .str "STOP"

/-- The argument-collection loop of the `Function` case of `evaluate`: pop
values, prepending each (`args.insert(0, y)`), until a popped value equals
the sentinel; popping an empty stack raises `IndexError`. -/
def collectArgs (acc : List Value) : List Value →
    Except Err (List Value × List Value)
  | [] => .error .typeError
  | y :: rest =>
    if y = STOPv then .ok (acc, rest)
    else collectArgs (y :: acc) rest

/-- The token loop of `evaluate` over the run stack (head = top).  Returns
the final run stack. -/
def evalToks (env : String → Option Value) :
    List Token → List Value → Except Err (List Value)
  | [], stack => .ok stack
  | tok :: toks, stack =>
    match tok with
    | .literal v => evalToks env toks (v :: stack)
    | .identifier n =>
      match env n with
      | some v => evalToks env toks (v :: stack)
      | none => .error .keyError
    | .op o =>
      match o.kind with
      | .binop =>
        match stack with
        | second :: first :: rest => do
          let v ← binOpApply o.name first second
          evalToks env toks (v :: rest)
        | _ => .error .typeError
      | .prefixUnOp =>
        match stack with
        | arg :: rest => do
          let v ← prefixApply o.name arg
          evalToks env toks (v :: rest)
        | _ => .error .typeError
      | .function => do
        let (args, rest) ← collectArgs [] stack
        let v ← funcApply o.name args
        evalToks env toks (v :: rest)
      | .infixUnOp => .error .typeError
    | .stop => evalToks env toks (STOPv :: stack)
    | .openParen => .error .typeError
    | .comma => .error .typeError

/-- `evaluate`: run the token loop on an empty stack and return `stack[0]`,
the bottom of the final stack (`IndexError` if it is empty). -/
def evaluate (tokens : List Token) (env : String → Option Value) :
    Except Err Value := do
  let stack ← evalToks env tokens []
  match stack.getLast? with
  | some v => .ok v
  | none => .error .typeError

/-! ## The tokenizer (`tokenize_expr`, delegating to Python's `tokenize`)

`tokenize_expr` hands the string to the standard library's `tokenize`
module.  The model below reproduces its behaviour on the expression alphabet
this language uses: decimal number literals, single-quoted strings,
identifiers/keywords (NAME tokens), the one- and two-character operator
tokens, and whitespace; a trailing NEWLINE and ENDMARKER close the stream.
An unrecognised character or an unterminated string raises. -/

/-- Longest digit prefix and the rest. -/
def lexDigits : List Char → List Char × List Char
  | [] => ([], [])
  | c :: cs =>
    if c.isDigit then
      let (ds, r) := lexDigits cs
      (c :: ds, r)
    else ([], c :: cs)

/-- Longest identifier-character (letter, digit, underscore) prefix and the
rest. -/
def lexNameChars : List Char → List Char × List Char
  | [] => ([], [])
  | c :: cs =>
    if c.isAlpha ∨ c.isDigit ∨ c = '_' then
      let (ds, r) := lexNameChars cs
      (c :: ds, r)
    else ([], c :: cs)

/-- Value of a digit list. -/
def digitsVal (ds : List Char) : ℕ :=
  ds.foldl (fun a c => 10 * a + (c.toNat - 48)) 0

/-- The tokenizer's character loop.  Written with structural fuel (every
iteration consumes at least one character, so `length + 1` units never run
out; `tokenize_expr` supplies them) to keep the definition kernel-
executable. -/
def tokenizeCharsF : ℕ → List Char → Except Err (List TokenInfo)
  | 0, _ => .error .typeError
  | _ + 1, [] => .ok [.newline, .endmarker]
  | fuel + 1, c :: cs =>
    if c = ' ' ∨ c = '\t' then tokenizeCharsF fuel cs
    else if c.isDigit then
      let (ds, rest) := lexDigits cs
      match rest with
      | '.' :: rest2 =>
        let (fs, rest3) := lexDigits rest2
        let ip : ℕ := digitsVal (c :: ds)
        let fp : ℕ := digitsVal fs
        do
          let toks ← tokenizeCharsF fuel rest3
          .ok (.number (qAdd (ip : ℚ) (qDiv (fp : ℚ) (qPowN 10 fs.length))) :: toks)
      | _ => do
        let toks ← tokenizeCharsF fuel rest
        .ok (.number (digitsVal (c :: ds) : ℚ) :: toks)
    else if c.isAlpha ∨ c = '_' then
      let (ds, rest) := lexNameChars cs
      do
        let toks ← tokenizeCharsF fuel rest
        .ok (.name (String.mk (c :: ds)) :: toks)
    else if c = '\'' then
      let content := cs.takeWhile (· ≠ '\'')
      match cs.dropWhile (· ≠ '\'') with
      | '\'' :: rest => do
        let toks ← tokenizeCharsF fuel rest
        .ok (.string (String.mk content) :: toks)
      | _ => .error .typeError
    else if (c = '<' ∨ c = '>' ∨ c = '=' ∨ c = '!') ∧ cs.head? = some '=' then do
      let toks ← tokenizeCharsF fuel cs.tail
      .ok (.op (String.mk [c, '=']) :: toks)
    else if c ∈ ['(', ')', ',', '.', '+', '-', '*', '/', '%', '^', '<', '>',
        '!', '='] then do
      let toks ← tokenizeCharsF fuel cs
      .ok (.op (String.mk [c]) :: toks)
    else .error .typeError

/-- `tokenize_expr`: tokenize the expression string (the leading ENCODING
token of Python's stream is consumed by `ShuntingYard.process` and not
represented). -/
def tokenize_expr (s : String) : Except Err (List TokenInfo) :=
  tokenizeCharsF (s.data.length + 1) s.data

/-- `eval_expr` (simple_eval.py): tokenize, run the shunting yard, evaluate
against the bindings. -/
def eval_expr (s : String) (env : String → Option Value) : Except Err Value := do
  let tokens ← tokenize_expr s
  let tokens ← ShuntingYard.process tokens
  evaluate tokens env

/-- Decidable equality on fallible results, for concrete evaluations. -/
instance {ε α : Type} [DecidableEq ε] [DecidableEq α] :
    DecidableEq (Except ε α) := fun a b =>
  match a, b with
  | .ok x, .ok y =>
    if h : x = y then .isTrue (by rw [h]) else .isFalse (by simp [h])
  | .error e, .error f =>
    if h : e = f then .isTrue (by rw [h]) else .isFalse (by simp [h])
  | .ok _, .error _ => .isFalse (by simp)
  | .error _, .ok _ => .isFalse (by simp)

/-- An empty binding environment. -/
def env0 : String → Option Value := fun _ => none

example : eval_expr "5*2" env0 = .ok (.num 10) := by decide

/-! ## Round-trip correctness of the expression engine (claim C2)

The spec-side grammar: expressions built from integer literals, the
registered operators `+ - * / ^`, unary minus and parentheses.  `toToks`
renders an expression as the token stream of its fully parenthesised form;
`denote` is its standard mathematical meaning (exact rational arithmetic,
division by zero and non-integral powers undefined); `postfixT` is the
instruction list the shunting yard is expected to produce. -/

/-- Spec-side arithmetic expressions. -/
inductive Expr where
  | lit : ℕ → Expr
  | neg : Expr → Expr
  | add : Expr → Expr → Expr
  | sub : Expr → Expr → Expr
  | mul : Expr → Expr → Expr
  | div : Expr → Expr → Expr
  | pow : Expr → Expr → Expr

/-- The token stream of the fully parenthesised rendering of an
expression. -/
def Expr.toToks : Expr → List TokenInfo
  | .lit n => [.number (n : ℚ)]
  | .neg e => .op "(" :: .op "-" :: (e.toToks ++ [.op ")"])
  | .add a b => .op "(" :: (a.toToks ++ .op "+" :: (b.toToks ++ [.op ")"]))
  | .sub a b => .op "(" :: (a.toToks ++ .op "-" :: (b.toToks ++ [.op ")"]))
  | .mul a b => .op "(" :: (a.toToks ++ .op "*" :: (b.toToks ++ [.op ")"]))
  | .div a b => .op "(" :: (a.toToks ++ .op "/" :: (b.toToks ++ [.op ")"]))
  | .pow a b => .op "(" :: (a.toToks ++ .op "^" :: (b.toToks ++ [.op ")"]))

/-- The standard mathematical result of an expression: exact rational
arithmetic; division by zero and powers with non-integral exponent (or
`0 ^ negative`) are undefined. -/
def Expr.denote : Expr → Option ℚ
  | .lit n => some (n : ℚ)
  | .neg e => (Expr.denote e).map (fun q => -q)
  | .add a b => do pure ((← Expr.denote a) + (← Expr.denote b))
  | .sub a b => do pure ((← Expr.denote a) - (← Expr.denote b))
  | .mul a b => do pure ((← Expr.denote a) * (← Expr.denote b))
  | .div a b => do
    let x ← Expr.denote a
    let y ← Expr.denote b
    if y = 0 then none else pure (x / y)
  | .pow a b => do
    let x ← Expr.denote a
    let y ← Expr.denote b
    if y.den = 1 then
      if x = 0 ∧ y.num < 0 then none else pure (x ^ y.num)
    else none

/-- The postfix instruction list the shunting yard produces for the
expression. -/
def Expr.postfixT : Expr → List Token
  | .lit n => [.literal (.num (n : ℚ))]
  | .neg e => e.postfixT ++ [.op ⟨.prefixUnOp, "-", 2, false⟩]
  | .add a b => a.postfixT ++ (b.postfixT ++ [.op ⟨.binop, "+", 4, true⟩])
  | .sub a b => a.postfixT ++ (b.postfixT ++ [.op ⟨.binop, "-", 4, true⟩])
  | .mul a b => a.postfixT ++ (b.postfixT ++ [.op ⟨.binop, "*", 3, true⟩])
  | .div a b => a.postfixT ++ (b.postfixT ++ [.op ⟨.binop, "/", 3, true⟩])
  | .pow a b => a.postfixT ++ (b.postfixT ++ [.op ⟨.binop, "^", 2, false⟩])

theorem Expr.postfixT_ne_nil (e : Expr) : e.postfixT ≠ [] := by
  cases e <;> simp [Expr.postfixT]

theorem ok_bind {β γ : Type} (x : β) (f : β → Except Err γ) :
    (Except.ok x >>= f : Except Err γ) = f x := rfl

theorem pure_ok {β : Type} (x : β) : (pure x : Except Err β) = Except.ok x := rfl

theorem step_close_paren (opd rest : List Token) (P : Op) (h : opd ≠ []) :
    ShuntingYard.step ⟨opd, .op P :: .openParen :: rest, true⟩ (.op ")") =
      .ok ⟨.op P :: opd, rest, true⟩ := by
  have h1 : ShuntingYard.handle_close_parenthese
      ⟨opd, .op P :: .openParen :: rest, true⟩ =
      Except.ok ⟨.op P :: opd, rest, true⟩ := by
    rw [ShuntingYard.handle_close_parenthese, if_neg h]
    rfl
  show (ShuntingYard.handle_close_parenthese
      ⟨opd, .op P :: .openParen :: rest, true⟩ >>=
    (fun st' => Except.ok
      (⟨st'.operand_stack, st'.operator_stack, true⟩ : ShuntingYard))) =
    Except.ok ⟨.op P :: opd, rest, true⟩
  rw [h1, ok_bind]

/-- The toToks/postfix invariant for a binary-operator node, factored over
the operator's symbol and table entry. -/
theorem syRun_binop_case (a b : Expr) (sym : String) (P : Op)
    (iha : ∀ (opd opr : List Token) (bb : Bool),
      (a.toToks).foldlM ShuntingYard.step ⟨opd, opr, bb⟩ =
        .ok ⟨a.postfixT.reverse ++ opd, opr, true⟩)
    (ihb : ∀ (opd opr : List Token) (bb : Bool),
      (b.toToks).foldlM ShuntingYard.step ⟨opd, opr, bb⟩ =
        .ok ⟨b.postfixT.reverse ++ opd, opr, true⟩)
    (hstep : ∀ (opd opr : List Token),
      ShuntingYard.step ⟨opd, .openParen :: opr, true⟩ (.op sym) =
        .ok ⟨opd, .op P :: .openParen :: opr, false⟩)
    (opd opr : List Token) (bb : Bool) :
    (TokenInfo.op "(" ::
        (a.toToks ++ TokenInfo.op sym :: (b.toToks ++ [TokenInfo.op ")"]))).foldlM
        ShuntingYard.step ⟨opd, opr, bb⟩ =
      .ok ⟨(a.postfixT ++ (b.postfixT ++ [Token.op P])).reverse ++ opd, opr,
        true⟩ := by
  rw [List.foldlM_cons,
    show ShuntingYard.step ⟨opd, opr, bb⟩ (.op "(") =
      .ok ⟨opd, .openParen :: opr, false⟩ from rfl, ok_bind,
    List.foldlM_append, iha, ok_bind, List.foldlM_cons, hstep, ok_bind,
    List.foldlM_append, ihb, ok_bind, List.foldlM_cons,
    step_close_paren (b.postfixT.reverse ++ (a.postfixT.reverse ++ opd)) opr P
      (by simp [List.append_eq_nil, b.postfixT_ne_nil]), ok_bind,
    List.foldlM_nil]
  simp [pure_ok, List.reverse_append]

/-- Processing the token stream of a fully parenthesised expression from any
shunting-yard state pushes exactly its postfix form onto the operand stack,
leaves the operator stack unchanged, and ends expecting a binary operator. -/
theorem syRun_toToks (e : Expr) :
    ∀ (opd opr : List Token) (b : Bool),
      (e.toToks).foldlM ShuntingYard.step ⟨opd, opr, b⟩ =
        .ok ⟨e.postfixT.reverse ++ opd, opr, true⟩ := by
  induction e with
  | lit n =>
    intro opd opr b
    simp [Expr.toToks, Expr.postfixT, ShuntingYard.step]
  | neg e ih =>
    intro opd opr b
    rw [Expr.toToks, List.foldlM_cons,
      show ShuntingYard.step ⟨opd, opr, b⟩ (.op "(") =
        .ok ⟨opd, .openParen :: opr, false⟩ from rfl, ok_bind,
      List.foldlM_cons,
      show ShuntingYard.step ⟨opd, .openParen :: opr, false⟩ (.op "-") =
        .ok ⟨opd, .op ⟨.prefixUnOp, "-", 2, false⟩ :: .openParen :: opr, false⟩
        from rfl, ok_bind,
      List.foldlM_append, ih, ok_bind, List.foldlM_cons,
      step_close_paren (e.postfixT.reverse ++ opd) opr
        ⟨.prefixUnOp, "-", 2, false⟩
        (by simp [List.append_eq_nil, e.postfixT_ne_nil]), ok_bind,
      List.foldlM_nil, Expr.postfixT]
    simp [pure_ok, List.reverse_append]
  | add a b iha ihb =>
    intro opd opr bb
    rw [Expr.toToks, Expr.postfixT]
    exact syRun_binop_case a b "+" ⟨.binop, "+", 4, true⟩ iha ihb
      (fun _ _ => rfl) opd opr bb
  | sub a b iha ihb =>
    intro opd opr bb
    rw [Expr.toToks, Expr.postfixT]
    exact syRun_binop_case a b "-" ⟨.binop, "-", 4, true⟩ iha ihb
      (fun _ _ => rfl) opd opr bb
  | mul a b iha ihb =>
    intro opd opr bb
    rw [Expr.toToks, Expr.postfixT]
    exact syRun_binop_case a b "*" ⟨.binop, "*", 3, true⟩ iha ihb
      (fun _ _ => rfl) opd opr bb
  | div a b iha ihb =>
    intro opd opr bb
    rw [Expr.toToks, Expr.postfixT]
    exact syRun_binop_case a b "/" ⟨.binop, "/", 3, true⟩ iha ihb
      (fun _ _ => rfl) opd opr bb
  | pow a b iha ihb =>
    intro opd opr bb
    rw [Expr.toToks, Expr.postfixT]
    exact syRun_binop_case a b "^" ⟨.binop, "^", 2, false⟩ iha ihb
      (fun _ _ => rfl) opd opr bb

/-- The shunting yard turns the fully parenthesised rendering of an
expression into exactly its postfix instruction list. -/
theorem process_toToks (e : Expr) :
    ShuntingYard.process (e.toToks ++ [.newline, .endmarker]) = .ok e.postfixT := by
  rw [ShuntingYard.process, List.foldlM_append, syRun_toToks, ok_bind,
    List.foldlM_cons,
    show ShuntingYard.step ⟨e.postfixT.reverse ++ [], [], true⟩ .newline =
      .ok ⟨e.postfixT.reverse ++ [], [], true⟩ from rfl, ok_bind,
    List.foldlM_cons,
    show ShuntingYard.step ⟨e.postfixT.reverse ++ [], [], true⟩ .endmarker =
      .ok ⟨e.postfixT.reverse ++ [], [], true⟩ from rfl, ok_bind,
    List.foldlM_nil, pure_ok, ok_bind]
  simp

theorem binOpApply_add (x y : ℚ) :
    binOpApply "+" (.num x) (.num y) = .ok (.num (x + y)) := by
  simp [binOpApply, addV, toNum, qAdd_eq]

theorem binOpApply_sub (x y : ℚ) :
    binOpApply "-" (.num x) (.num y) = .ok (.num (x - y)) := by
  simp [binOpApply, arithV, toNum, qSub_eq]

theorem binOpApply_mul (x y : ℚ) :
    binOpApply "*" (.num x) (.num y) = .ok (.num (x * y)) := by
  simp [binOpApply, arithV, toNum, qMul_eq]

theorem binOpApply_div (x y : ℚ) :
    binOpApply "/" (.num x) (.num y) =
      if y = 0 then .error .typeError else .ok (.num (x / y)) := by
  show (if y = 0 then (Except.error Err.typeError : Except Err Value)
    else .ok (.num (qDiv x y))) = _
  by_cases hy : y = 0
  · simp [hy]
  · simp [hy, qDiv_eq]

theorem binOpApply_pow (x y : ℚ) :
    binOpApply "^" (.num x) (.num y) =
      if y.den = 1 then
        if x = 0 ∧ y.num < 0 then .error .typeError
        else .ok (.num (x ^ y.num))
      else .error .typeError := by
  show (if y.den = 1 then
      if x = 0 ∧ y.num < 0 then (Except.error Err.typeError : Except Err Value)
      else .ok (.num (qZpow x y.num))
    else .error .typeError) = _
  by_cases hden : y.den = 1
  · by_cases hneg : x = 0 ∧ y.num < 0
    · simp [hden, hneg]
    · simp [hden, hneg, qZpow_eq]
  · simp [hden]

theorem prefixApply_neg (q : ℚ) :
    prefixApply "-" (.num q) = .ok (.num (-q)) := by
  simp [prefixApply, toNum]

theorem err_bind {β γ : Type} (e : Err) (f : β → Except Err γ) :
    (Except.error e >>= f : Except Err γ) = .error e := rfl

/-- Unfolding step of `evaluate`'s loop at a binary-operator token over a
two-deep stack. -/
theorem evalToks_binop_cons (env : String → Option Value) (o : Op)
    (toks : List Token) (x y : Value) (stack : List Value)
    (hk : o.kind = OpKind.binop) :
    evalToks env (.op o :: toks) (y :: x :: stack) =
      (binOpApply o.name x y) >>= fun v => evalToks env toks (v :: stack) := by
  cases o with
  | mk kind name prec assoc =>
    cases hk
    rfl

/-- Executing the postfix form of an expression on any run stack pushes its
standard mathematical value, or fails exactly when that value is
undefined. -/
theorem evalToks_postfixT (e : Expr) (env : String → Option Value) :
    ∀ (toks : List Token) (stack : List Value),
      evalToks env (e.postfixT ++ toks) stack =
        match e.denote with
        | some q => evalToks env toks (.num q :: stack)
        | none => .error .typeError := by
  induction e with
  | lit n =>
    intro toks stack
    simp [Expr.postfixT, Expr.denote, evalToks]
  | neg e ih =>
    intro toks stack
    rw [Expr.postfixT, List.append_assoc, ih]
    cases he : e.denote with
    | none => simp [Expr.denote, he]
    | some q =>
      dsimp only
      rw [List.singleton_append,
        show evalToks env (Token.op ⟨.prefixUnOp, "-", 2, false⟩ :: toks)
            (.num q :: stack) =
          (prefixApply "-" (.num q)) >>= fun v => evalToks env toks (v :: stack)
          from rfl,
        prefixApply_neg, ok_bind]
      simp [Expr.denote, he]
  | add a b iha ihb =>
    intro toks stack
    rw [Expr.postfixT, List.append_assoc, iha]
    cases ha : a.denote with
    | none => simp [Expr.denote, ha]
    | some x =>
      dsimp only
      rw [List.append_assoc, ihb]
      cases hb : b.denote with
      | none => simp [Expr.denote, ha, hb]
      | some y =>
        dsimp only
        rw [List.singleton_append,
          evalToks_binop_cons env ⟨.binop, "+", 4, true⟩ toks _ _ stack rfl,
          binOpApply_add, ok_bind]
        simp [Expr.denote, ha, hb]
  | sub a b iha ihb =>
    intro toks stack
    rw [Expr.postfixT, List.append_assoc, iha]
    cases ha : a.denote with
    | none => simp [Expr.denote, ha]
    | some x =>
      dsimp only
      rw [List.append_assoc, ihb]
      cases hb : b.denote with
      | none => simp [Expr.denote, ha, hb]
      | some y =>
        dsimp only
        rw [List.singleton_append,
          evalToks_binop_cons env ⟨.binop, "-", 4, true⟩ toks _ _ stack rfl,
          binOpApply_sub, ok_bind]
        simp [Expr.denote, ha, hb]
  | mul a b iha ihb =>
    intro toks stack
    rw [Expr.postfixT, List.append_assoc, iha]
    cases ha : a.denote with
    | none => simp [Expr.denote, ha]
    | some x =>
      dsimp only
      rw [List.append_assoc, ihb]
      cases hb : b.denote with
      | none => simp [Expr.denote, ha, hb]
      | some y =>
        dsimp only
        rw [List.singleton_append,
          evalToks_binop_cons env ⟨.binop, "*", 3, true⟩ toks _ _ stack rfl,
          binOpApply_mul, ok_bind]
        simp [Expr.denote, ha, hb]
  | div a b iha ihb =>
    intro toks stack
    rw [Expr.postfixT, List.append_assoc, iha]
    cases ha : a.denote with
    | none => simp [Expr.denote, ha]
    | some x =>
      dsimp only
      rw [List.append_assoc, ihb]
      cases hb : b.denote with
      | none => simp [Expr.denote, ha, hb]
      | some y =>
        dsimp only
        rw [List.singleton_append,
          evalToks_binop_cons env ⟨.binop, "/", 3, true⟩ toks _ _ stack rfl,
          binOpApply_div]
        by_cases hy : y = 0
        · simp [Expr.denote, ha, hb, hy, err_bind]
        · simp [Expr.denote, ha, hb, hy, ok_bind]
  | pow a b iha ihb =>
    intro toks stack
    rw [Expr.postfixT, List.append_assoc, iha]
    cases ha : a.denote with
    | none => simp [Expr.denote, ha]
    | some x =>
      dsimp only
      rw [List.append_assoc, ihb]
      cases hb : b.denote with
      | none => simp [Expr.denote, ha, hb]
      | some y =>
        dsimp only
        rw [List.singleton_append,
          evalToks_binop_cons env ⟨.binop, "^", 2, false⟩ toks _ _ stack rfl,
          binOpApply_pow]
        by_cases hden : y.den = 1
        · by_cases hneg : x = 0 ∧ y.num < 0
          · obtain ⟨hx0, hyn⟩ := hneg
            have hy' : y < 0 := Rat.num_neg.mp hyn
            simp [Expr.denote, ha, hb, hden, hx0, hyn, hy', err_bind]
          · have hneg' : ¬(x = 0 ∧ y < 0) := fun hc =>
              hneg ⟨hc.1, Rat.num_neg.mpr hc.2⟩
            simp [Expr.denote, ha, hb, hden, hneg, hneg', ok_bind]
        · simp [Expr.denote, ha, hb, hden, err_bind]

/-- Claim C2: for every expression built from integer literals and the
registered operators `+ - * / ^` (with parentheses and unary minus),
evaluating the instruction sequence produced by the shunting yard yields the
standard mathematical result — `*` binds tighter than `+`, `-` and `/` are
left-associative — and in particular `eval_expr "5*2" = 10`,
`eval_expr "5-2-1" = 2`, `eval_expr "16/2/2" = 4`,
`eval_expr "3+5*2" = 13 = eval_expr "5*2+3"`, and with unary-minus
disambiguation `eval_expr "2*(-2)" = -4`, `eval_expr "-2+2" = 0`,
`eval_expr "--2" = 2`, `eval_expr "2--2-3" = 1`. -/
theorem c2_expression_roundtrip :
    (∀ (e : Expr) (env : String → Option Value),
      (do
        let ts ← ShuntingYard.process (e.toToks ++ [.newline, .endmarker])
        evaluate ts env) =
        match e.denote with
        | some q => Except.ok (Value.num q)
        | none => Except.error Err.typeError) ∧
    eval_expr "5*2" env0 = .ok (.num 10) ∧
    eval_expr "5-2-1" env0 = .ok (.num 2) ∧
    eval_expr "16/2/2" env0 = .ok (.num 4) ∧
    eval_expr "3+5*2" env0 = .ok (.num 13) ∧
    eval_expr "5*2+3" env0 = .ok (.num 13) ∧
    eval_expr "2*(-2)" env0 = .ok (.num (-4)) ∧
    eval_expr "-2+2" env0 = .ok (.num 0) ∧
    eval_expr "--2" env0 = .ok (.num 2) ∧
    eval_expr "2--2-3" env0 = .ok (.num 1) := by
  refine ⟨?_, by decide, by decide, by decide, by decide, by decide,
    by decide, by decide, by decide, by decide⟩
  intro e env
  rw [process_toToks, ok_bind]
  show (evalToks env e.postfixT [] >>= fun stack =>
    match stack.getLast? with
    | some v => Except.ok v
    | none => Except.error Err.typeError) = _
  rw [show evalToks env e.postfixT [] = evalToks env (e.postfixT ++ []) [] by
    rw [List.append_nil], evalToks_postfixT]
  cases hd : e.denote with
  | none => rfl
  | some q => rfl

/-- The argument-collection loop pops exactly down to the first sentinel. -/
theorem collectArgs_append (l : List Value) :
    ∀ (acc rest : List Value), STOPv ∉ l →
      collectArgs acc (l ++ STOPv :: rest) = .ok (l.reverse ++ acc, rest) := by
  induction l with
  | nil =>
    intro acc rest _
    simp [collectArgs]
  | cons y l ih =>
    intro acc rest hmem
    have hy : y ≠ STOPv := fun hc => hmem (by simp [hc])
    have hl : STOPv ∉ l := fun hc => hmem (by simp [hc])
    rw [List.cons_append, collectArgs, if_neg hy, ih (y :: acc) rest hl]
    simp

/-- Claim C7: a `Function` token pops the run stack down to the call-marker
sentinel, restores the collected arguments to their original order, applies
the named function and pushes its result; nested arithmetic inside the
arguments is therefore resolved first, and in particular
`eval_expr "min((a+2)*3, 4*2)"` with `a = 10` returns `8`.  (The arguments
are required not to contain the raw string `"STOP"`, which Python's `!=`
comparison against the sentinel could not distinguish from the marker.) -/
theorem c7_function_call_evaluation :
    (∀ (env : String → Option Value) (name : String) (toks : List Token)
        (args rest : List Value),
      STOPv ∉ args →
        evalToks env (.op ⟨.function, name, 1, false⟩ :: toks)
            (args.reverse ++ STOPv :: rest) =
          (funcApply name args >>= fun v => evalToks env toks (v :: rest))) ∧
    eval_expr "min((a+2)*3, 4*2)"
        (fun s => if s = "a" then some (Value.num 10) else none) =
      .ok (.num 8) := by
  refine ⟨?_, by decide⟩
  intro env name toks args rest hmem
  have hrev : STOPv ∉ args.reverse := fun hc => hmem (List.mem_reverse.mp hc)
  show (collectArgs [] (args.reverse ++ STOPv :: rest) >>=
    fun p => funcApply name p.1 >>= fun v => evalToks env toks (v :: p.2)) = _
  rw [collectArgs_append args.reverse [] rest hrev, ok_bind]
  simp

/-! ## Header deduplication (`improve_header`, transformation.py) -/

/-- The whitespace set of Python `str.isspace()` / `str.strip()` (CPython's
`Py_UNICODE_ISSPACE`): `\t\n\x0b\x0c\r`, `\x1c`-`\x1f`, space, U+0085
(NEL), U+00A0 (NBSP), U+1680, U+2000-U+200A, U+2028, U+2029, U+202F,
U+205F and U+3000. -/
def pyIsSpace (c : Char) : Bool :=
  decide ((9 ≤ c.toNat ∧ c.toNat ≤ 13) ∨ (28 ≤ c.toNat ∧ c.toNat ≤ 31) ∨
    c.toNat = 32 ∨ c.toNat = 133 ∨ c.toNat = 160 ∨ c.toNat = 5760 ∨
    (8192 ≤ c.toNat ∧ c.toNat ≤ 8202) ∨ c.toNat = 8232 ∨ c.toNat = 8233 ∨
    c.toNat = 8239 ∨ c.toNat = 8287 ∨ c.toNat = 12288)

/-- Python `str.strip()`: remove whitespace from both ends. -/
def pyStrip (s : String) : String :=
  String.mk (((s.data.dropWhile pyIsSpace).reverse.dropWhile
    pyIsSpace).reverse)

/-- Decimal rendering of a natural number, on structural fuel (the argument
strictly decreases under division by ten, so `n + 1` units always
suffice). -/
def natToDigitsF : ℕ → ℕ → List Char
  | 0, _ => []
  | fuel + 1, n =>
    if n < 10 then [Char.ofNat (48 + n)]
    else natToDigitsF fuel (n / 10) ++ [Char.ofNat (48 + n % 10)]

/-- Decimal rendering of a natural number (`"{}".format(n)`). -/
def natToDigits (n : ℕ) : List Char := natToDigitsF (n + 1) n

/-- The match of `SUFFIX_REGEX = ^(.*)_(\d+)$` on a name: the greedy `(.*)`
splits at the last underscore, and the tail after it must be a nonempty
digit string; returns the base and the numeric value of the suffix. -/
def splitSuffix (f : String) : Option (String × ℕ) :=
  let rev := f.data.reverse
  let ds := rev.takeWhile Char.isDigit
  if ds = [] then none
  else
    match rev.dropWhile Char.isDigit with
    | '_' :: base => some (String.mk base.reverse, digitsVal ds.reverse)
    | _ => none

/-- One iteration of the while loop of `improve_header`:
`f = "{}_{}".format(base, v + 1)` where `(base, v)` comes from the regex
match, or `(f, 0)` when the name has no `_N` suffix. -/
def suffixStep (f : String) : String :=
  match splitSuffix f with
  | some (base, v) => base ++ "_" ++ String.mk (natToDigits (v + 1))
  | none => f ++ "_" ++ String.mk (natToDigits 1)

/-- The while loop `while f in seen: ...` of `improve_header`, on structural
fuel; `improve_header` supplies `seen.length + 1` units, which
`dedupF_eq_iterate` below proves sufficient. -/
def dedupF : ℕ → List String → String → String
  | 0, _, f => f
  | fuel + 1, seen, f => if f ∈ seen then dedupF fuel seen (suffixStep f) else f

/-- The while loop of `improve_header` (refine the candidate until it has
not been seen). -/
def dedup_while (seen : List String) (f : String) : String :=
  dedupF (seen.length + 1) seen f

/-- The scan of `improve_header`: strip each name, refine the duplicated
ones against the growing `seen` set, and record every assigned name. -/
def improve_header_go (dup : String → Bool) :
    List String → List String → List String
  | _, [] => []
  | seen, f :: rest =>
    let f1 := pyStrip f
    let f2 := if dup f1 then dedup_while seen f1 else f1
    f2 :: improve_header_go dup (f2 :: seen) rest

/-- `improve_header` (transformation.py): `duplicates` is the set of names
occurring more than once, `seen` starts as the set of all (unstripped)
names, and each name is stripped and refined left to right. -/
def improve_header (header : List String) : List String :=
  improve_header_go (fun s => decide (2 ≤ header.count s)) header header

example : improve_header ["a", "a", "a"] = ["a_1", "a_2", "a_3"] := by decide
example : improve_header ["a", "a_1", "a"] = ["a_2", "a_1", "a_3"] := by decide
example : improve_header ["a ", "a"] = ["a", "a"] := by decide

example : pyStrip "a\x0b" = "a" := by decide

example : improve_header ["a\x0b", "a"] = ["a", "a"] := by decide
example : improve_header ["a", "", "b", "", "a", ""] =
    ["a_1", "_1", "b", "_2", "a_2", "_3"] := by decide

theorem charDigit_toNat {m : ℕ} (h : m < 10) :
    (Char.ofNat (48 + m)).toNat = 48 + m := by
  interval_cases m <;> decide

theorem charDigit_isDigit {m : ℕ} (h : m < 10) :
    (Char.ofNat (48 + m)).isDigit = true := by
  interval_cases m <;> decide

theorem digitsVal_append (ds : List Char) (c : Char) :
    digitsVal (ds ++ [c]) = 10 * digitsVal ds + (c.toNat - 48) := by
  simp [digitsVal, List.foldl_append]

theorem natToDigitsF_val :
    ∀ (fuel n : ℕ), n < fuel → digitsVal (natToDigitsF fuel n) = n
  | 0, n, h => absurd h (Nat.not_lt_zero n)
  | fuel + 1, n, h => by
    rw [natToDigitsF]
    by_cases h10 : n < 10
    · rw [if_pos h10]
      simp [digitsVal, charDigit_toNat h10]
    · rw [if_neg h10, digitsVal_append,
        natToDigitsF_val fuel (n / 10) (by omega),
        charDigit_toNat (Nat.mod_lt n (by norm_num))]
      omega

theorem digitsVal_natToDigits (n : ℕ) : digitsVal (natToDigits n) = n :=
  natToDigitsF_val (n + 1) n (Nat.lt_succ_self n)

theorem natToDigits_ne_nil (n : ℕ) : natToDigits n ≠ [] := by
  rw [natToDigits, natToDigitsF]
  split <;> simp

theorem natToDigitsF_digits :
    ∀ (fuel n : ℕ) (c : Char), c ∈ natToDigitsF fuel n → c.isDigit = true
  | 0, n, c, h => absurd h (by simp [natToDigitsF])
  | fuel + 1, n, c, h => by
    rw [natToDigitsF] at h
    by_cases h10 : n < 10
    · rw [if_pos h10] at h
      simp only [List.mem_singleton] at h
      subst h
      exact charDigit_isDigit h10
    · rw [if_neg h10] at h
      rcases List.mem_append.mp h with h1 | h2
      · exact natToDigitsF_digits fuel (n / 10) c h1
      · simp only [List.mem_singleton] at h2
        subst h2
        exact charDigit_isDigit (Nat.mod_lt n (by norm_num))

theorem natToDigits_digits (n : ℕ) :
    ∀ c ∈ natToDigits n, c.isDigit = true :=
  fun c hc => natToDigitsF_digits (n + 1) n c hc

theorem takeWhile_append_all {α : Type} (p : α → Bool) :
    ∀ (l r : List α), (∀ c ∈ l, p c = true) →
      (l ++ r).takeWhile p = l ++ r.takeWhile p := by
  intro l
  induction l with
  | nil => simp
  | cons c l ih =>
    intro r h
    rw [List.cons_append, List.takeWhile_cons, if_pos (h c (by simp)),
      ih r (fun x hx => h x (by simp [hx]))]
    simp

theorem dropWhile_append_all {α : Type} (p : α → Bool) :
    ∀ (l r : List α), (∀ c ∈ l, p c = true) →
      (l ++ r).dropWhile p = r.dropWhile p := by
  intro l
  induction l with
  | nil => simp
  | cons c l ih =>
    intro r h
    rw [List.cons_append, List.dropWhile_cons_of_pos (h c (by simp)),
      ih r (fun x hx => h x (by simp [hx]))]

/-- The name `base_(n)` built by the loop body. -/
def mkName (b : String) (n : ℕ) : String :=
  b ++ "_" ++ String.mk (natToDigits n)

theorem splitSuffix_mkName (b : String) (n : ℕ) :
    splitSuffix (mkName b n) = some (b, n) := by
  obtain ⟨bl⟩ := b
  have hdata : (mkName ⟨bl⟩ n).data = bl ++ '_' :: natToDigits n := by
    simp [mkName]
  rw [splitSuffix]
  simp only [hdata, List.reverse_append, List.reverse_cons]
  have hrev : (natToDigits n).reverse ++ ('_' :: bl.reverse) =
      (natToDigits n).reverse ++ ('_' :: bl.reverse) := rfl
  have hdig : ∀ c ∈ (natToDigits n).reverse, c.isDigit = true :=
    fun c hc => natToDigits_digits n c (List.mem_reverse.mp hc)
  have htake : (((natToDigits n).reverse ++ ('_' :: bl.reverse)).takeWhile
      Char.isDigit) = (natToDigits n).reverse := by
    rw [takeWhile_append_all _ _ _ hdig, List.takeWhile_cons]
    simp [Char.isDigit]
  have hdrop : (((natToDigits n).reverse ++ ('_' :: bl.reverse)).dropWhile
      Char.isDigit) = '_' :: bl.reverse := by
    rw [dropWhile_append_all _ _ _ hdig, List.dropWhile_cons_of_neg]
    simp [Char.isDigit]
  rw [show (natToDigits n).reverse ++ ['_'] ++ bl.reverse =
    (natToDigits n).reverse ++ ('_' :: bl.reverse) by simp]
  rw [htake, hdrop]
  rw [if_neg (by simp [natToDigits_ne_nil n])]
  simp [digitsVal_natToDigits]

theorem suffixStep_mkName (b : String) (n : ℕ) :
    suffixStep (mkName b n) = mkName b (n + 1) := by
  rw [suffixStep, splitSuffix_mkName]
  rfl

/-- The base/value pair the loop body starts from. -/
def baseOf (f : String) : String × ℕ := (splitSuffix f).getD (f, 0)

theorem suffixStep_eq (f : String) :
    suffixStep f = mkName (baseOf f).1 ((baseOf f).2 + 1) := by
  rw [suffixStep, baseOf]
  cases h : splitSuffix f with
  | none => rfl
  | some p => rfl

theorem iterate_suffixStep (f : String) :
    ∀ k : ℕ, suffixStep^[k + 1] f = mkName (baseOf f).1 ((baseOf f).2 + (k + 1)) := by
  intro k
  induction k with
  | zero =>
    rw [Function.iterate_one]
    exact suffixStep_eq f
  | succ k ih =>
    rw [Function.iterate_succ_apply', ih, suffixStep_mkName]
    exact congrArg (mkName (baseOf f).1) (by omega)

theorem mkName_inj_right (b : String) {m n : ℕ} (h : mkName b m = mkName b n) :
    m = n := by
  have h2 := congrArg splitSuffix h
  rw [splitSuffix_mkName, splitSuffix_mkName] at h2
  injection h2 with h3
  injection h3 with h4 h5

theorem iterate_suffixStep_ne (f : String) {j k : ℕ} (hjk : j < k) :
    suffixStep^[j] f ≠ suffixStep^[k] f := by
  intro heq
  rcases Nat.exists_eq_add_of_lt hjk with ⟨d, hd⟩
  cases j with
  | zero =>
    rw [Function.iterate_zero_apply] at heq
    rcases Nat.exists_eq_succ_of_ne_zero (by omega : k ≠ 0) with ⟨k', hk'⟩
    subst hk'
    rw [iterate_suffixStep f k'] at heq
    have h2 := congrArg splitSuffix heq
    rw [splitSuffix_mkName] at h2
    rcases hs : splitSuffix f with _ | p
    · rw [hs] at h2
      exact Option.noConfusion h2
    · rw [hs] at h2
      have hp : p = ((baseOf f).1, (baseOf f).2 + (k' + 1)) :=
        Option.some.inj h2
      have hbase : baseOf f = p := by rw [baseOf, hs]; rfl
      rw [hbase] at hp
      have := congrArg Prod.snd hp
      simp at this
  | succ j' =>
    rcases Nat.exists_eq_succ_of_ne_zero (by omega : k ≠ 0) with ⟨k', hk'⟩
    subst hk'
    rw [iterate_suffixStep f j', iterate_suffixStep f k'] at heq
    have := mkName_inj_right _ heq
    omega

/-- The candidate chain leaves any finite `seen` set within `seen.length`
steps: its members are pairwise distinct, so they cannot all lie in
`seen`. -/
theorem exists_iterate_notin (seen : List String) (f : String) :
    ∃ k, k ≤ seen.length ∧ suffixStep^[k] f ∉ seen := by
  by_contra hcon
  push_neg at hcon
  have hmemall : ∀ i : Fin (seen.length + 1),
      suffixStep^[(i : ℕ)] f ∈ seen.toFinset := by
    intro i
    rw [List.mem_toFinset]
    exact hcon i (Nat.lt_succ_iff.mp i.isLt)
  have hinj : Set.InjOn (fun i : Fin (seen.length + 1) => suffixStep^[(i : ℕ)] f)
      (Finset.univ : Finset (Fin (seen.length + 1))) := by
    intro i _ j _ hij
    by_contra hne
    rcases lt_or_gt_of_ne (fun hc => hne (Fin.ext hc) : (i : ℕ) ≠ (j : ℕ)) with h | h
    · exact iterate_suffixStep_ne f h hij
    · exact iterate_suffixStep_ne f h hij.symm
  have hcard := Finset.card_le_card_of_injOn _ (fun i _ => hmemall i) hinj
  rw [Finset.card_univ, Fintype.card_fin] at hcard
  have := List.toFinset_card_le seen
  omega

theorem find_pos_of_mem {seen : List String} {f : String}
    (hex : ∃ k, suffixStep^[k] f ∉ seen) (hf : f ∈ seen) : 0 < Nat.find hex :=
  Nat.pos_of_ne_zero fun h0 =>
    ((Nat.find_eq_zero hex).mp h0 : suffixStep^[0] f ∉ seen) hf

theorem shift_ex {seen : List String} {f : String}
    (hex : ∃ k, suffixStep^[k] f ∉ seen) (hf : f ∈ seen) :
    ∃ k, suffixStep^[k] (suffixStep f) ∉ seen := by
  refine ⟨Nat.find hex - 1, ?_⟩
  rw [← Function.iterate_succ_apply,
    show (Nat.find hex - 1).succ = Nat.find hex by
      have := find_pos_of_mem hex hf
      omega]
  exact Nat.find_spec hex

theorem shift_find {seen : List String} {f : String}
    (hex : ∃ k, suffixStep^[k] f ∉ seen)
    (hex' : ∃ k, suffixStep^[k] (suffixStep f) ∉ seen) (hf : f ∈ seen) :
    Nat.find hex' = Nat.find hex - 1 := by
  apply le_antisymm
  · apply Nat.find_le
    rw [← Function.iterate_succ_apply,
      show (Nat.find hex - 1).succ = Nat.find hex by
        have := find_pos_of_mem hex hf
        omega]
    exact Nat.find_spec hex
  · rw [Nat.le_find_iff]
    intro m hm
    rw [not_not, ← Function.iterate_succ_apply]
    by_contra hnot
    have hle : Nat.find hex ≤ m + 1 := Nat.find_le (h := hex) hnot
    omega

/-- With enough fuel, the while loop returns the first candidate outside
`seen`. -/
theorem dedupF_eq_iterate :
    ∀ (fuel : ℕ) (seen : List String) (f : String)
      (h : ∃ k, suffixStep^[k] f ∉ seen), Nat.find h < fuel →
      dedupF fuel seen f = suffixStep^[Nat.find h] f
  | 0, _, _, _, hlt => absurd hlt (by omega)
  | fuel + 1, seen, f, h, hlt => by
    rw [dedupF]
    by_cases hf : f ∈ seen
    · rw [if_pos hf]
      have h' := shift_ex h hf
      have hfind := shift_find h h' hf
      have hpos := find_pos_of_mem h hf
      rw [dedupF_eq_iterate fuel seen (suffixStep f) h' (by omega), hfind,
        ← Function.iterate_succ_apply,
        show (Nat.find h - 1).succ = Nat.find h by omega]
    · rw [if_neg hf, (Nat.find_eq_zero h).mpr hf]
      rfl

theorem dedup_while_eq_iterate (seen : List String) (f : String)
    (h : ∃ k, suffixStep^[k] f ∉ seen) :
    dedup_while seen f = suffixStep^[Nat.find h] f := by
  have hb : Nat.find h < seen.length + 1 := by
    obtain ⟨k, hk, hnot⟩ := exists_iterate_notin seen f
    have := Nat.find_le (h := h) hnot
    omega
  exact dedupF_eq_iterate (seen.length + 1) seen f h hb

theorem dedup_while_ex (seen : List String) (f : String) :
    ∃ k, suffixStep^[k] f ∉ seen := by
  obtain ⟨k, _, hnot⟩ := exists_iterate_notin seen f
  exact ⟨k, hnot⟩

/-- The refined name never lies in `seen`. -/
theorem dedup_while_notin (seen : List String) (f : String) :
    dedup_while seen f ∉ seen := by
  rw [dedup_while_eq_iterate seen f (dedup_while_ex seen f)]
  exact Nat.find_spec (dedup_while_ex seen f)

/-- The fueled loop satisfies exactly the source's while-loop unfolding:
refine the candidate by `suffixStep` until it has not been seen. -/
theorem dedup_while_unfold (seen : List String) (f : String) :
    dedup_while seen f =
      if f ∈ seen then dedup_while seen (suffixStep f) else f := by
  have hex := dedup_while_ex seen f
  by_cases hf : f ∈ seen
  · rw [if_pos hf, dedup_while_eq_iterate seen f hex,
      dedup_while_eq_iterate seen (suffixStep f) (shift_ex hex hf),
      shift_find hex (shift_ex hex hf) hf,
      ← Function.iterate_succ_apply,
      show (Nat.find hex - 1).succ = Nat.find hex by
        have := find_pos_of_mem hex hf
        omega]
  · rw [if_neg hf, dedup_while_eq_iterate seen f hex,
      (Nat.find_eq_zero hex).mpr hf]
    rfl

theorem improve_header_go_length (dup : String → Bool) :
    ∀ (rest seen : List String),
      (improve_header_go dup seen rest).length = rest.length := by
  intro rest
  induction rest with
  | nil => intro seen; simp [improve_header_go]
  | cons f rest ih =>
    intro seen
    simp [improve_header_go, ih]

theorem improve_header_go_nodup (header : List String)
    (hstrip : ∀ s ∈ header, pyStrip s = s) :
    ∀ (rest done seen : List String),
      header = done ++ rest →
      (∀ s ∈ header, s ∈ seen) →
      (improve_header_go (fun s => decide (2 ≤ header.count s)) seen
        rest).Nodup ∧
      (∀ x ∈ improve_header_go (fun s => decide (2 ≤ header.count s)) seen rest,
        x ∉ seen ∨ (header.count x = 1 ∧ x ∈ rest)) := by
  intro rest
  induction rest with
  | nil =>
    intro done seen _ _
    simp [improve_header_go]
  | cons f rest ih =>
    intro done seen hsplit hsub
    have hfheader : f ∈ header := by
      rw [hsplit]
      simp
    have hstripf : pyStrip f = f := hstrip f hfheader
    by_cases hdup : 2 ≤ header.count f
    · have hgo : improve_header_go (fun s => decide (2 ≤ header.count s)) seen
          (f :: rest) =
          dedup_while seen f ::
            improve_header_go (fun s => decide (2 ≤ header.count s))
              (dedup_while seen f :: seen) rest := by
        simp [improve_header_go, hstripf, hdup]
      have hnotin : dedup_while seen f ∉ seen := dedup_while_notin seen f
      obtain ⟨ihN, ihP⟩ := ih (done ++ [f]) (dedup_while seen f :: seen)
        (by rw [hsplit]; simp)
        (fun s hs => List.mem_cons_of_mem _ (hsub s hs))
      rw [hgo]
      constructor
      · refine List.nodup_cons.mpr ⟨?_, ihN⟩
        intro hmem
        rcases ihP _ hmem with hL | ⟨_, hr⟩
        · exact hL (by simp)
        · exact hnotin (hsub _ (by rw [hsplit]; simp [hr]))
      · intro x hx
        rcases List.mem_cons.mp hx with rfl | hx2
        · exact Or.inl hnotin
        · rcases ihP x hx2 with hL | ⟨hc, hr⟩
          · exact Or.inl (fun hc2 => hL (by simp [hc2]))
          · exact Or.inr ⟨hc, by simp [hr]⟩
    · have hcount1 : header.count f = 1 := by
        have h1 : 0 < header.count f := List.count_pos_iff.mpr hfheader
        omega
      have hgo : improve_header_go (fun s => decide (2 ≤ header.count s)) seen
          (f :: rest) =
          f :: improve_header_go (fun s => decide (2 ≤ header.count s))
            (f :: seen) rest := by
        simp [improve_header_go, hstripf, hdup]
      obtain ⟨ihN, ihP⟩ := ih (done ++ [f]) (f :: seen)
        (by rw [hsplit]; simp)
        (fun s hs => List.mem_cons_of_mem _ (hsub s hs))
      rw [hgo]
      constructor
      · refine List.nodup_cons.mpr ⟨?_, ihN⟩
        intro hmem
        rcases ihP _ hmem with hL | ⟨hc, hr⟩
        · exact hL (by simp)
        · have h2 : 2 ≤ header.count f := by
            rw [hsplit]
            have hpos : 0 < rest.count f := List.count_pos_iff.mpr hr
            simp [List.count_append, List.count_cons]
            omega
          omega
      · intro x hx
        rcases List.mem_cons.mp hx with rfl | hx2
        · exact Or.inr ⟨hcount1, by simp⟩
        · rcases ihP x hx2 with hL | ⟨hc, hr⟩
          · exact Or.inl (fun hc2 => hL (by simp [hc2]))
          · exact Or.inr ⟨hc, by simp [hr]⟩

/-- Claim C6: `improve_header` deduplicates every name occurring more than
once by repeatedly applying the append-or-increment step to the candidate
until it has not yet been seen (the first conjunct is exactly the source's
while-loop unfolding), scanning left to right with a growing seen set; in
particular on `["a","a","a"]` it yields `["a_1","a_2","a_3"]` and on
`["a","a_1","a"]` it yields `["a_2","a_1","a_3"]`. -/
theorem c6_improve_header_dedup :
    (∀ (seen : List String) (f : String),
      dedup_while seen f =
        if f ∈ seen then dedup_while seen (suffixStep f) else f) ∧
    improve_header ["a", "a", "a"] = ["a_1", "a_2", "a_3"] ∧
    improve_header ["a", "a_1", "a"] = ["a_2", "a_1", "a_3"] :=
  ⟨dedup_while_unfold, by decide, by decide⟩

/-- Claim C9, counterexample: stripping happens after the duplicate set and
the seen set are computed from the raw names, so
`improve_header ["a ", "a"] = ["a", "a"]`, which is not pairwise
distinct. -/
theorem c9_whitespace_counterexample :
    improve_header ["a ", "a"] = ["a", "a"] ∧
      ¬ (improve_header ["a ", "a"]).Nodup := by
  constructor
  · decide
  · decide

/-- Claim C9 (amended): `improve_header` always preserves the length of the
header, and its entries are pairwise distinct whenever no entry carries
leading or trailing whitespace (stripping can merge a padded name with a
clean duplicate, as the counterexample shows). -/
theorem c9_improve_header_shape (header : List String) :
    (improve_header header).length = header.length ∧
      ((∀ s ∈ header, pyStrip s = s) → (improve_header header).Nodup) := by
  constructor
  · exact improve_header_go_length _ header header
  · intro hstrip
    exact (improve_header_go_nodup header hstrip header [] header (by simp)
      (fun s hs => hs)).1

/-! ## The transformation pipeline (transformation.py)

Rows are Python dicts keyed by column identifier; dicts preserve insertion
order and are modelled as association lists with Python's assignment
semantics (`pyInsert`: overwrite in place, else append).  The function-typed
configuration fields (`EntityFilter`, `ColType`, `ColFilter`, `Expression`,
`ColAgg`) are modelled as Lean functions into `Except Err`, since applying a
compiled expression can raise. -/

/-- Association-list lookup (`d[k]` / `d.get(k)`). -/
def alookup {κ α : Type} [DecidableEq κ] : List (κ × α) → κ → Option α
  | [], _ => none
  | (k', v) :: t, k => if k' = k then some v else alookup t k

/-- Python dict assignment `d[k] = v`: overwrite in place, else append. -/
def pyInsert {κ α : Type} [DecidableEq κ] (l : List (κ × α)) (k : κ) (v : α) :
    List (κ × α) :=
  match l with
  | [] => [(k, v)]
  | (k', v') :: t => if k' = k then (k', v) :: t else (k', v') :: pyInsert t k v

/-- `d.setdefault(k, dflt)` followed by an in-place update of the stored
value (the composite `d.setdefault(key, {})...append(v)` idiom). -/
def updAssoc {κ α : Type} [DecidableEq κ] (l : List (κ × α)) (k : κ) (dflt : α)
    (g : α → α) : List (κ × α) :=
  match l with
  | [] => [(k, g dflt)]
  | (k', v) :: t => if k' = k then (k', g v) :: t else (k', v) :: updAssoc t k dflt g

abbrev StrRow := List (String × String)
abbrev Row := List (String × Value)
abbrev ColType := String → Except Err Value
abbrev ColFilter := Value → Except Err Value
abbrev ColAgg := List Value → Except Err Value

/-- Whitespace-run replacement `SPACE_REGEX.sub("_", s)` (functions.py): each
maximal run of whitespace becomes one underscore. -/
def spaceSubGo : Bool → List Char → List Char
  | _, [] => []
  | inRun, c :: cs =>
    if c.isWhitespace then
      if inRun then spaceSubGo true cs else '_' :: spaceSubGo true cs
    else c :: spaceSubGo false cs

/-- `normalize` (functions.py): ASCII-fold, replace whitespace runs by `_`,
lowercase.  The NFKD decomposition step is modelled as dropping non-ASCII
characters (faithful on ASCII input; no claim exercises non-ASCII names). -/
def normalizeName (s : String) : String :=
  String.mk ((spaceSubGo false (s.data.filter (fun c => c.toNat < 128))).map
    Char.toLower)

/-- `DefaultColumnTransformation`. -/
structure DefaultColumnTransformation where
  visible : Bool
  normalize : Bool

/-- `DefaultColumnTransformation.rename`: normalize or identity. -/
def DefaultColumnTransformation.rename (dct : DefaultColumnTransformation)
    (name : String) : String :=
  if dct.normalize then normalizeName name else name

/-- `ColumnTransformation`: the per-column compiled rules. -/
structure ColumnTransformation where
  visible : Bool
  type_fn : ColType
  filter_fn : ColFilter
  map_fn : Value → Except Err Value
  agg_fn : Option ColAgg
  rename_fn : String → String
  id_fn : String → String

namespace ColumnTransformation

def has_agg (ct : ColumnTransformation) : Bool := ct.agg_fn.isSome

def rename (ct : ColumnTransformation) (name : String) : String :=
  ct.rename_fn name

def type_value (ct : ColumnTransformation) (value_str : String) :
    Except Err Value := ct.type_fn value_str

def is_visible (ct : ColumnTransformation) : Bool := ct.visible

/-- `agg`: apply `self._agg`; calling `None` raises `TypeError`. -/
def agg (ct : ColumnTransformation) (values : List Value) : Except Err Value :=
  match ct.agg_fn with
  | some f => f values
  | none => .error .typeError

def get_id (ct : ColumnTransformation) (name : String) : String :=
  ct.id_fn name

def col_filter (ct : ColumnTransformation) (value : Value) : Except Err Value :=
  ct.filter_fn value

def col_map (ct : ColumnTransformation) (value : Value) : Except Err Value :=
  ct.map_fn value

end ColumnTransformation

/-- `NewColumnTransformation`: a synthetic column. -/
structure NewColumnTransformation where
  col_id_str : String
  visible : Bool
  filter_fn : ColFilter
  formula_fn : Row → Except Err Value
  agg_fn : Option ColAgg
  name : String

namespace NewColumnTransformation

def has_agg (nt : NewColumnTransformation) : Bool := nt.agg_fn.isSome

def is_visible (nt : NewColumnTransformation) : Bool := nt.visible

def get_id (nt : NewColumnTransformation) : String := nt.col_id_str

def col_filter (nt : NewColumnTransformation) (value : Value) :
    Except Err Value := nt.filter_fn value

def col_formula (nt : NewColumnTransformation) (row : Row) :
    Except Err Value := nt.formula_fn row

end NewColumnTransformation

/-- `Transformation`: entity/aggregate filters, the default rule, the
per-name column rules and the ordered synthetic columns.  (The extra-column
padding fields only feed `add_fields`, which no claim touches.) -/
structure Transformation where
  entity_filter : Row → Except Err Value
  agg_filter : Row → Except Err Value
  default_column_transformation : DefaultColumnTransformation
  col_transformation_by_name : List (String × ColumnTransformation)
  new_col_transformations : List NewColumnTransformation

namespace Transformation

/-- `_col_id`: the configured id, else the default rename of the name. -/
def col_id (t : Transformation) (name : String) : String :=
  match alookup t.col_transformation_by_name name with
  | some ct => ct.get_id name
  | none => t.default_column_transformation.rename name

/-- `self._col_transformation_by_id`, built in `__init__` as a dict
comprehension over the by-name dict. -/
def col_transformation_by_id (t : Transformation) :
    List (String × ColumnTransformation) :=
  t.col_transformation_by_name.foldl
    (fun acc p => pyInsert acc (t.col_id p.1) p.2) []

/-- `self._new_col_transformation_by_id`. -/
def new_col_transformation_by_id (t : Transformation) :
    List (String × NewColumnTransformation) :=
  t.new_col_transformations.foldl
    (fun acc nt => pyInsert acc nt.get_id nt) []

/-- `_type_value`: look the id up and apply the declared coercion; the
`except KeyError` catches both a missing id and a `KeyError` raised inside
the coercion itself, returning the raw value. -/
def type_value (t : Transformation) (col_id : String) (value : String) :
    Except Err Value :=
  match alookup t.col_transformation_by_id col_id with
  | none => .ok (.str value)
  | some ct =>
    match ct.type_value value with
    | .error .keyError => .ok (.str value)
    | r => r

/-- `_type_row`: type every cell, in row order, failing fast. -/
def type_row (t : Transformation) : StrRow → Except Err Row
  | [] => .ok []
  | p :: rest => do
    let v ← t.type_value p.1 p.2
    let r ← t.type_row rest
    pure ((p.1, v) :: r)

/-- `_extend_row`: evaluate every synthetic column's formula against the
row so far and assign it under its id. -/
def extend_row (t : Transformation) (row : Row) : Except Err Row :=
  t.new_col_transformations.foldlM
    (fun r nt => do
      let v ← nt.col_formula r
      pure (pyInsert r nt.get_id v))
    row

/-- `_col_map`: apply the configured map expression; the `except KeyError`
catches both a missing id and a `KeyError` raised inside the expression. -/
def col_map_value (t : Transformation) (col_id : String) (value : Value) :
    Except Err Value :=
  match alookup t.col_transformation_by_id col_id with
  | none => .ok value
  | some ct =>
    match ct.col_map value with
    | .error .keyError => .ok value
    | r => r

/-- `_map`: map every cell, in row order. -/
def map_row (t : Transformation) : Row → Except Err Row
  | [] => .ok []
  | p :: rest => do
    let v ← t.col_map_value p.1 p.2
    let r ← t.map_row rest
    pure ((p.1, v) :: r)

/-- `_col_filter`: the declared column's filter, else the synthetic
column's, else vacuously true. -/
def col_filter_value (t : Transformation) (col_id : String) (value : Value) :
    Except Err Value :=
  match alookup t.col_transformation_by_id col_id with
  | some ct => ct.col_filter value
  | none =>
    match alookup t.new_col_transformation_by_id col_id with
    | some nt => nt.col_filter value
    | none => .ok (.bool true)

/-- The `all(...)` generator of `_filter`: evaluate the per-column filters
left to right, stopping at the first falsy result. -/
def all_col_filters (t : Transformation) : List (String × Value) → Except Err Bool
  | [] => .ok true
  | p :: rest => do
    let r ← t.col_filter_value p.1 p.2
    if truthy r then t.all_col_filters rest else pure false

/-- `_filter`: the entity filter first; only when it is truthy are the
per-column filters consulted. -/
def filt (t : Transformation) (typed_row : Row) : Except Err Bool := do
  let v ← t.entity_filter typed_row
  if truthy v then t.all_col_filters typed_row else pure false

/-- The three shared preparation statements of `transform` and
`take_or_ignore`: type the raw row, extend it with the synthetic columns,
map every cell. -/
def prep_row (t : Transformation) (row : StrRow) : Except Err Row := do
  let r1 ← t.type_row row
  let r2 ← t.extend_row r1
  t.map_row r2

/-- `transform`: the typed/extended/mapped row when accepted, `None` when
rejected. -/
def transform (t : Transformation) (row : StrRow) : Except Err (Option Row) := do
  let typed ← t.prep_row row
  let ok ← t.filt typed
  if ok then pure (some typed) else pure none

/-- `_col_is_agg`: declared column first, then synthetic column, else
false. -/
def col_is_agg (t : Transformation) (col_id : String) : Bool :=
  match alookup t.col_transformation_by_id col_id with
  | some ct => ct.has_agg
  | none =>
    match alookup t.new_col_transformation_by_id col_id with
    | some nt => nt.has_agg
    | none => false

/-- `_col_is_visible_by_id`: the declared column's flag, else the default
(synthetic columns fall to the default here too). -/
def col_is_visible_by_id (t : Transformation) (col_id : String) : Bool :=
  match alookup t.col_transformation_by_id col_id with
  | some ct => ct.is_visible
  | none => t.default_column_transformation.visible

/-- `has_agg`: any column of the by-id dict aggregates. -/
def has_agg (t : Transformation) : Bool :=
  t.col_transformation_by_id.any (fun p => t.col_is_agg p.1)

/-- The group key of `take_or_ignore`: the (id, value) pairs of the row's
identifiers that are visible and not aggregated, in row order. -/
def group_key (t : Transformation) (typed_row : Row) : Row :=
  typed_row.filter (fun p => ! t.col_is_agg p.1 && t.col_is_visible_by_id p.1)

/-- `typed_value_by_id[col_id]`: raises `KeyError` when absent. -/
def getRow (row : Row) (i : String) : Except Err Value :=
  match alookup row i with
  | some v => .ok v
  | none => .error .keyError

/-- The group accumulator `self._d`: an insertion-ordered dict from group
key to an insertion-ordered dict from aggregated id to the collected
values. -/
abbrev AggState := List (Row × List (String × List Value))

/-- `take_or_ignore`: prepare and filter the row exactly as `transform`
does; on acceptance append every aggregated declared column's value to its
group bucket (`self._d.setdefault(key, {}).setdefault(col_id, []).append(...)`). -/
def take_or_ignore (t : Transformation) (d : AggState) (row : StrRow) :
    Except Err AggState := do
  let typed ← t.prep_row row
  let ok ← t.filt typed
  if ok then
    let key := t.group_key typed
    t.col_transformation_by_id.foldlM
      (fun d p =>
        if t.col_is_agg p.1 then do
          let v ← getRow typed p.1
          pure (updAssoc d key []
            (fun m => updAssoc m p.1 [] (fun vs => vs ++ [v])))
        else pure d)
      d
  else pure d

/-- `_col_rename`: the configured rename of a declared name, else the
default rename. -/
def col_rename (t : Transformation) (name : String) : String :=
  match alookup t.col_transformation_by_name name with
  | some ct => ct.rename name
  | none => t.default_column_transformation.rename name

/-- `_rename` (marked deprecated in the source, but applied by
`agg_rows`): rebuild the row keyed by `_col_rename` of each key. -/
def rename_row (t : Transformation) (row : Row) : Row :=
  row.foldl (fun acc p => pyInsert acc (t.col_rename p.1) p.2) []

/-- `agg_rows`: for each accumulated group, rebuild the row from the key
pairs, assign each aggregated id the aggregate of its collected values, and
yield the `_rename`d row. -/
def agg_rows (t : Transformation) : AggState → Except Err (List Row)
  | [] => .ok []
  | e :: rest => do
    let row ← e.2.foldlM
      (fun r q => do
        let ct ← match alookup t.col_transformation_by_id q.1 with
          | some ct => Except.ok ct
          | none => Except.error Err.keyError
        let v ← ct.agg q.2
        pure (pyInsert r q.1 v))
      (e.1.foldl (fun acc q => pyInsert acc q.1 q.2) [])
    let rs ← t.agg_rows rest
    pure (t.rename_row row :: rs)

/-- Feeding a whole input to `take_or_ignore`, starting from the empty
accumulator state (the `_row_generator` ingestion loop). -/
def process (t : Transformation) (rows : List StrRow) : Except Err AggState :=
  rows.foldlM t.take_or_ignore []

end Transformation

/-! ## Configuration compilation (the builders, claims C8) -/

/-- `ExpressionParser.parse`: tokenize and shunting-yard at parse time, and
return the closure evaluating the instructions against `{"it": v}`. -/
def ExpressionParser.parse (expression_str : String) :
    Except Err (Value → Except Err Value) := do
  let tokens ← tokenize_expr expression_str
  let tokens ← ShuntingYard.process tokens
  pure (fun v => evaluate tokens (fun n => if n = "it" then some v else none))

namespace BaseColumnTransformationBuilder

/-- `_parse_col_visible`. -/
def parse_col_visible (dct : DefaultColumnTransformation) :
    Option Bool → Bool
  | none => dct.visible
  | some b => b

/-- `_parse_col_filter`: `true_func` when absent, else the compiled
expression. -/
def parse_col_filter : Option String → Except Err ColFilter
  | none => .ok (fun _ => .ok (.bool true))
  | some s => ExpressionParser.parse s

/-- `_parse_col_agg`: `None` when absent; a name missing from the aggregate
table raises `KeyError`, which is caught, logged and turned into `None`. -/
def parse_col_agg (func_by_agg : List (String × ColAgg)) :
    Option String → Option ColAgg
  | none => none
  | some s =>
    match alookup func_by_agg s with
    | some f => some f
    | none => none

end BaseColumnTransformationBuilder

namespace ColumnTransformationBuilder

/-- `_parse_col_id`: a constant function returning the configured id. -/
def parse_col_id (col_id_str : String) : String → String :=
  fun _ => col_id_str

/-- `_parse_col_type`: `id_func` when absent; a name missing from the type
table raises `KeyError`, which is caught by compiling the name itself as an
expression over `it` bound to the raw string. -/
def parse_col_type (func_by_type : List (String × ColType)) :
    Option String → Except Err ColType
  | none => .ok (fun v => .ok (.str v))
  | some s =>
    match alookup func_by_type s with
    | some f => .ok f
    | none => do
      let e ← ExpressionParser.parse s
      pure (fun v => e (.str v))

/-- `_parse_col_map`: `id_func` when absent, else the compiled expression. -/
def parse_col_map : Option String → Except Err (Value → Except Err Value)
  | none => .ok (fun v => .ok v)
  | some s => ExpressionParser.parse s

/-- `_parse_col_rename`: the default rename function when absent, else a
constant function returning the configured name. -/
def parse_col_rename (dct : DefaultColumnTransformation) :
    Option String → (String → String)
  | none => dct.rename
  | some r => fun _ => r

/-- `ColumnTransformationBuilder.build`. -/
def build (func_by_type : List (String × ColType))
    (func_by_agg : List (String × ColAgg))
    (dct : DefaultColumnTransformation)
    (col_id_str : Option String) (col_visible : Option Bool)
    (col_type_str col_filter_str col_map_str col_rename_str
      col_agg_str : Option String) :
    Except Err ColumnTransformation := do
  let col_rename := parse_col_rename dct col_rename_str
  let col_id := match col_id_str with
    | none => col_rename
    | some s => parse_col_id s
  let visible := BaseColumnTransformationBuilder.parse_col_visible dct
    col_visible
  let ctype ← parse_col_type func_by_type col_type_str
  let cfilter ← BaseColumnTransformationBuilder.parse_col_filter
    col_filter_str
  let cmap ← parse_col_map col_map_str
  let cagg := BaseColumnTransformationBuilder.parse_col_agg func_by_agg
    col_agg_str
  pure ⟨visible, ctype, cfilter, cmap, cagg, col_rename, col_id⟩

end ColumnTransformationBuilder

example :
    (ColumnTransformationBuilder.parse_col_type ([] : List (String × ColType))
      (some "INT")).map (fun f => f "2") = .ok (.error .keyError) := by decide

/-- The `all(...)` loop of `_filter` succeeds with `True` exactly when every
per-column filter returns (without raising) a truthy value. -/
theorem all_col_filters_ok_true_iff (t : Transformation)
    (l : List (String × Value)) :
    t.all_col_filters l = .ok true ↔
      ∀ p ∈ l, ∃ fv, t.col_filter_value p.1 p.2 = .ok fv ∧ truthy fv = true := by
  induction l with
  | nil =>
    constructor
    · intro _ p hp
      cases hp
    · intro _
      rfl
  | cons p rest ih =>
    have hstep : t.all_col_filters (p :: rest) =
        t.col_filter_value p.1 p.2 >>= fun r =>
          if truthy r then t.all_col_filters rest else pure false := rfl
    rw [hstep]
    cases hr : t.col_filter_value p.1 p.2 with
    | error e =>
      rw [err_bind]
      constructor
      · intro h
        cases h
      · intro h
        obtain ⟨fv, hfv, _⟩ := h p (List.mem_cons_self p rest)
        rw [hr] at hfv
        cases hfv
    | ok fv =>
      rw [ok_bind]
      by_cases htr : truthy fv = true
      · rw [if_pos htr, ih]
        constructor
        · intro h q hq
          rcases List.mem_cons.mp hq with h1 | h2
          · exact h1 ▸ ⟨fv, hr, htr⟩
          · exact h q h2
        · intro h q hq
          exact h q (List.mem_cons_of_mem p hq)
      · rw [if_neg htr]
        constructor
        · intro h
          exact Bool.noConfusion (Except.ok.inj h)
        · intro h
          obtain ⟨fv', hfv', htr'⟩ := h p (List.mem_cons_self p rest)
          rw [hr] at hfv'
          cases hfv'
          exact absurd htr' htr

/-- Claim C3: given the entity filter's result on a typed row, (i) when it
is truthy, the row is accepted iff every per-column filter returns a truthy
value on its column's value; (ii) when it is falsy, the row is rejected and
the per-column filters are never consulted: any two transformations with
the same entity filter reject identically, whatever their column
filters. -/
theorem c3_filter_semantics (t1 t2 : Transformation) (row : Row) (v : Value)
    (hent : t1.entity_filter row = .ok v) :
    (truthy v = true →
      (t1.filt row = .ok true ↔
        ∀ p ∈ row, ∃ fv, t1.col_filter_value p.1 p.2 = .ok fv ∧
          truthy fv = true)) ∧
    (truthy v = false → t1.entity_filter = t2.entity_filter →
      t1.filt row = .ok false ∧ t2.filt row = .ok false) := by
  have hstep1 : t1.filt row = t1.entity_filter row >>= fun v' =>
      if truthy v' then t1.all_col_filters row else pure false := rfl
  have hstep2 : t2.filt row = t2.entity_filter row >>= fun v' =>
      if truthy v' then t2.all_col_filters row else pure false := rfl
  constructor
  · intro htr
    rw [hstep1, hent, ok_bind, if_pos htr]
    exact all_col_filters_ok_true_iff t1 row
  · intro hfalse hfun
    constructor
    · rw [hstep1, hent, ok_bind,
        if_neg (by simp [hfalse] : ¬ truthy v = true)]
      rfl
    · have hent2 : t2.entity_filter row = .ok v := by
        rw [← hfun]
        exact hent
      rw [hstep2, hent2, ok_bind,
        if_neg (by simp [hfalse] : ¬ truthy v = true)]
      rfl

/-- A transformation whose entity filter rejects everything and with no
column rules. -/
def tC3a : Transformation :=
  ⟨fun _ => .ok (.bool false), fun _ => .ok (.bool true), ⟨true, false⟩,
    [], []⟩

/-- A column rule whose filter always raises. -/
def ctC3 : ColumnTransformation :=
  ⟨true, fun s => .ok (.str s), fun _ => .error .typeError, fun v => .ok v,
    none, fun n => n, fun n => n⟩

/-- Same entity filter as `tC3a`, but with a raising column filter on
`x`. -/
def tC3b : Transformation :=
  ⟨fun _ => .ok (.bool false), fun _ => .ok (.bool true), ⟨true, false⟩,
    [("x", ctC3)], []⟩

/-- Witness for C3 at concrete inputs: both transformations reject the row
identically, the raising column filter notwithstanding. -/
theorem c3_filter_semantics_witness :
    tC3a.filt [("x", .num 1)] = .ok false ∧
    tC3b.filt [("x", .num 1)] = .ok false :=
  (c3_filter_semantics tC3a tC3b [("x", .num 1)] (.bool false) rfl).2 rfl rfl

/-! ## Rejection atomicity of `take_or_ignore` (claim C10) -/

/-- Claim C10: when the prepared (typed, extended, mapped) row is rejected
by `_filter` — entity-level or any per-column rejection — `take_or_ignore`
returns the group accumulator exactly unchanged: no group key is created
and no value is appended. -/
theorem c10_rejection_atomic (t : Transformation) (d : Transformation.AggState)
    (row : StrRow) (typed : Row) (hprep : t.prep_row row = .ok typed)
    (hrej : t.filt typed = .ok false) :
    t.take_or_ignore d row = .ok d := by
  have hstep : t.take_or_ignore d row =
      t.prep_row row >>= fun typed' =>
        t.filt typed' >>= fun ok =>
          if ok then
            t.col_transformation_by_id.foldlM
              (fun d p =>
                if t.col_is_agg p.1 then do
                  let v ← Transformation.getRow typed' p.1
                  pure (updAssoc d (t.group_key typed') []
                    (fun m => updAssoc m p.1 [] (fun vs => vs ++ [v])))
                else pure d)
              d
          else pure d := rfl
  rw [hstep, hprep, ok_bind, hrej, ok_bind, if_neg Bool.false_ne_true]
  rfl

/-- Witness for C10 at concrete inputs: a rejected row leaves a nonempty
accumulator untouched. -/
theorem c10_rejection_atomic_witness :
    tC3a.take_or_ignore [([("k", Value.str "v")], [("a", [Value.num 1])])]
      [("x", "1")] =
      .ok [([("k", Value.str "v")], [("a", [Value.num 1])])] :=
  c10_rejection_atomic tC3a
    [([("k", Value.str "v")], [("a", [Value.num 1])])]
    [("x", "1")] [("x", .str "1")] rfl rfl

/-! ## Type-coercion failures are hard failures (claim C4) -/

/-- If some cell's `_type_value` raises, `_type_row` raises. -/
theorem type_row_error_of_mem (t : Transformation) :
    ∀ (row : StrRow) (i s : String), (i, s) ∈ row →
      (∃ e0, t.type_value i s = .error e0) →
      ∃ e, t.type_row row = .error e := by
  intro row
  induction row with
  | nil =>
    intro i s hmem _
    cases hmem
  | cons p rest ih =>
    intro i s hmem hfail
    have hstep : t.type_row (p :: rest) =
        t.type_value p.1 p.2 >>= fun v =>
          t.type_row rest >>= fun r => pure ((p.1, v) :: r) := rfl
    cases hv : t.type_value p.1 p.2 with
    | error e =>
      exact ⟨e, by rw [hstep, hv, err_bind]⟩
    | ok v =>
      rcases List.mem_cons.mp hmem with h1 | h2
      · obtain ⟨e0, hfail⟩ := hfail
        rw [← h1, hfail] at hv
        cases hv
      · obtain ⟨e, he⟩ := ih i s h2 hfail
        exact ⟨e, by rw [hstep, hv, ok_bind, he, err_bind]⟩

/-- Claim C4: a row holding a value rejected (with a non-`KeyError`) by its
column's declared coercion makes `transform` and `take_or_ignore` raise:
neither a row nor `None` nor an accumulator is returned, so the failure is
not converted into silent row-skipping. -/
theorem c4_type_error_hard_failure (t : Transformation) (row : StrRow)
    (d : Transformation.AggState) (i s : String) (ct : ColumnTransformation)
    (hct : alookup t.col_transformation_by_id i = some ct)
    (hfail : ct.type_value s = .error .typeError)
    (hmem : (i, s) ∈ row) :
    (∃ e, t.transform row = .error e) ∧
    (∃ e, t.take_or_ignore d row = .error e) := by
  have htv : t.type_value i s = .error .typeError := by
    unfold Transformation.type_value
    rw [hct]
    show (match ct.type_value s with
      | Except.error Err.keyError => Except.ok (Value.str s)
      | r => r) = Except.error Err.typeError
    rw [hfail]
  obtain ⟨e, he⟩ := type_row_error_of_mem t row i s hmem ⟨.typeError, htv⟩
  have hp : t.prep_row row = .error e := by
    have hstep : t.prep_row row = t.type_row row >>= fun r1 =>
        t.extend_row r1 >>= fun r2 => t.map_row r2 := rfl
    rw [hstep, he, err_bind]
  constructor
  · refine ⟨e, ?_⟩
    have hstep : t.transform row = t.prep_row row >>= fun typed =>
        t.filt typed >>= fun ok =>
          if ok then pure (some typed) else pure none := rfl
    rw [hstep, hp, err_bind]
  · refine ⟨e, ?_⟩
    have hstep : t.take_or_ignore d row =
        t.prep_row row >>= fun typed =>
          t.filt typed >>= fun ok =>
            if ok then
              t.col_transformation_by_id.foldlM
                (fun d p =>
                  if t.col_is_agg p.1 then do
                    let v ← Transformation.getRow typed p.1
                    pure (updAssoc d (t.group_key typed) []
                      (fun m => updAssoc m p.1 [] (fun vs => vs ++ [v])))
                  else pure d)
                d
            else pure d := rfl
    rw [hstep, hp, err_bind]

/-- A column rule whose coercion always raises `TypeError`. -/
def ctC4 : ColumnTransformation :=
  ⟨true, fun _ => .error .typeError, fun _ => .ok (.bool true),
    fun v => .ok v, none, fun n => n, fun n => n⟩

/-- A transformation declaring the raising coercion on column `x`. -/
def tC4 : Transformation :=
  ⟨fun _ => .ok (.bool true), fun _ => .ok (.bool true), ⟨true, false⟩,
    [("x", ctC4)], []⟩

/-- Witness for C4 at concrete inputs. -/
theorem c4_type_error_hard_failure_witness :
    (∃ e, tC4.transform [("x", "boom")] = .error e) ∧
    (∃ e, tC4.take_or_ignore [] [("x", "boom")] = .error e) :=
  c4_type_error_hard_failure tC4 [("x", "boom")] [] "x" "boom" ctC4 rfl rfl
    (List.mem_cons_self _ _)

/-! ## Grouping and aggregation (claim C1) -/

/-- The aggregated declared columns, in by-id dict order: the pairs the
`take_or_ignore` loop acts on. -/
def Transformation.aggPairs (t : Transformation) :
    List (String × ColumnTransformation) :=
  t.col_transformation_by_id.filter (fun p => t.col_is_agg p.1)

/-- Spec side of the refinement: the distinct group keys of the accepted
typed rows, in first-occurrence order. -/
def specKeys (t : Transformation) (typeds : List Row) : List Row :=
  typeds.foldl
    (fun acc r =>
      if t.group_key r ∈ acc then acc else acc ++ [t.group_key r]) []

/-- Spec side: the values of identifier `i` collected from the rows of
group `k`, in input order. -/
def specCollect (t : Transformation) (typeds : List Row) (k : Row)
    (i : String) : List Value :=
  typeds.filterMap (fun r => if t.group_key r = k then alookup r i else none)

/-- Spec side: the group accumulator the spec describes — one entry per
distinct group key, holding every aggregated identifier's collected value
list. -/
def specD (t : Transformation) (typeds : List Row) : Transformation.AggState :=
  (specKeys t typeds).map (fun k =>
    (k, t.aggPairs.map (fun p => (p.1, specCollect t typeds k p.1))))

/-- The typed/extended/mapped forms of the accepted rows, in input order
(the rows `transform` would keep). -/
def acceptedTyped (t : Transformation) : List StrRow → Except Err (List Row)
  | [] => .ok []
  | row :: rest => do
    let o ← t.transform row
    let r ← acceptedTyped t rest
    pure (match o with
      | some typed => typed :: r
      | none => r)

/-- Spec side: the emitted row of one group — key values for the
non-aggregated identifiers, `agg` of the collected list for the aggregated
ones, the whole row then keyed through `_col_rename`. -/
def specAggRow (t : Transformation) (typeds : List Row) (k : Row) :
    Except Err Row := do
  let row ← t.aggPairs.foldlM
    (fun r p => do
      let v ← p.2.agg (specCollect t typeds k p.1)
      pure (pyInsert r p.1 v))
    (k.foldl (fun acc q => pyInsert acc q.1 q.2) [])
  pure (t.rename_row row)

def specAggRowsGo (t : Transformation) (typeds : List Row) :
    List Row → Except Err (List Row)
  | [] => .ok []
  | k :: ks => do
    let row ← specAggRow t typeds k
    let rest ← specAggRowsGo t typeds ks
    pure (row :: rest)

/-- Spec side: one emitted row per distinct group key, in first-occurrence
order. -/
def specAggRows (t : Transformation) (typeds : List Row) :
    Except Err (List Row) :=
  specAggRowsGo t typeds (specKeys t typeds)

/-- A column rule renaming `a` to `A` while keeping id `a`. -/
def ctC1a : ColumnTransformation :=
  ⟨true, fun s => .ok (.str s), fun _ => .ok (.bool true), fun v => .ok v,
    none, fun _ => "A", fun n => n⟩

/-- An aggregated column rule on `b` whose aggregate is the value count. -/
def ctC1b : ColumnTransformation :=
  ⟨true, fun s => .ok (.str s), fun _ => .ok (.bool true), fun v => .ok v,
    some (fun vs => .ok (.num (vs.length : ℚ))), fun n => n, fun n => n⟩

def tC1 : Transformation :=
  ⟨fun _ => .ok (.bool true), fun _ => .ok (.bool true), ⟨true, false⟩,
    [("a", ctC1a), ("b", ctC1b)], []⟩

/-- Claim C1 counterexample (as stated): the row emitted by `agg_rows` is
not keyed by identifier — `agg_rows` applies `_rename`, so the group column
`a` (renamed to `A`) appears under `A` and no entry at the identifier `a`
survives. -/
theorem c1_rename_counterexample :
    tC1.process [[("a", "x"), ("b", "y")]] =
      .ok [([("a", Value.str "x")], [("b", [Value.str "y"])])] ∧
    tC1.agg_rows [([("a", Value.str "x")], [("b", [Value.str "y"])])] =
      .ok [[("A", Value.str "x"), ("b", Value.num 1)]] ∧
    alookup [("A", Value.str "x"), ("b", Value.num 1)] "a" = none := by
  refine ⟨by decide, by decide, by decide⟩

/-- Two `updAssoc`s at the same key compose. -/
theorem updAssoc_updAssoc {κ α : Type} [DecidableEq κ] (k : κ) (dflt : α)
    (g1 g2 : α → α) :
    ∀ l : List (κ × α),
      updAssoc (updAssoc l k dflt g1) k dflt g2 =
        updAssoc l k dflt (fun a => g2 (g1 a)) := by
  intro l
  induction l with
  | nil => simp [updAssoc]
  | cons q t ih =>
    by_cases h : q.1 = k
    · simp [updAssoc, h]
    · simp [updAssoc, h, ih]

/-- A nonempty fold of `updAssoc`s at one key is one `updAssoc` by the
composite update. -/
theorem foldl_updAssoc_compose {κ α β : Type} [DecidableEq κ] (key : κ)
    (dflt : α) (g : β → α → α) :
    ∀ (ps : List β) (p0 : β) (d : List (κ × α)),
      (p0 :: ps).foldl (fun d p => updAssoc d key dflt (g p)) d =
        updAssoc d key dflt
          (fun a => ps.foldl (fun a p => g p a) (g p0 a)) := by
  intro ps
  induction ps with
  | nil =>
    intro p0 d
    rfl
  | cons p1 ps' ih =>
    intro p0 d
    show (p1 :: ps').foldl (fun d p => updAssoc d key dflt (g p))
        (updAssoc d key dflt (g p0)) = _
    rw [ih p1 (updAssoc d key dflt (g p0)), updAssoc_updAssoc]
    rfl

/-- `updAssoc` at a key different from the head passes the head. -/
theorem updAssoc_cons_ne {κ α : Type} [DecidableEq κ] (x : κ × α)
    (l : List (κ × α)) (k : κ) (dflt : α) (g : α → α) (h : x.1 ≠ k) :
    updAssoc (x :: l) k dflt g = x :: updAssoc l k dflt g := by
  cases x
  simp [updAssoc, h]

/-- Folding `updAssoc`s whose keys all differ from the head passes the
head. -/
theorem foldl_updAssoc_cons {κ α β : Type} [DecidableEq κ] (f : β → κ)
    (g : β → α → α) (dflt : α) :
    ∀ (ps : List β) (x : κ × α) (l : List (κ × α)),
      (∀ p ∈ ps, f p ≠ x.1) →
      ps.foldl (fun m p => updAssoc m (f p) dflt (g p)) (x :: l) =
        x :: ps.foldl (fun m p => updAssoc m (f p) dflt (g p)) l := by
  intro ps
  induction ps with
  | nil =>
    intro x l _
    rfl
  | cons p rest ih =>
    intro x l h
    show rest.foldl _ (updAssoc (x :: l) (f p) dflt (g p)) = _
    rw [updAssoc_cons_ne x l (f p) dflt (g p)
        (fun he => h p (List.mem_cons_self p rest) he.symm),
      ih x (updAssoc l (f p) dflt (g p))
        (fun q hq => h q (List.mem_cons_of_mem p hq))]
    rfl

/-- Folding per-id appends over the map-formed dict of those very ids
appends each value to its own entry (ids pairwise distinct). -/
theorem foldl_updAssoc_self_map {α β : Type} [DecidableEq α]
    (vals : α → β) :
    ∀ (ps : List (α × ColumnTransformation)) (h : α → List β),
      (ps.map Prod.fst).Nodup →
      ps.foldl (fun m p => updAssoc m p.1 [] (fun vs => vs ++ [vals p.1]))
          (ps.map (fun p => (p.1, h p.1))) =
        ps.map (fun p => (p.1, h p.1 ++ [vals p.1])) := by
  intro ps
  induction ps with
  | nil =>
    intro h _
    rfl
  | cons p rest ih =>
    intro h hnd
    have hne : ∀ q ∈ rest, q.1 ≠ p.1 := by
      intro q hq he
      exact (List.nodup_cons.mp hnd).1 (he ▸ List.mem_map_of_mem Prod.fst hq)
    show rest.foldl _
        (updAssoc ((p.1, h p.1) :: rest.map (fun q => (q.1, h q.1))) p.1 []
          (fun vs => vs ++ [vals p.1])) = _
    have hhead : updAssoc ((p.1, h p.1) :: rest.map (fun q => (q.1, h q.1)))
        p.1 [] (fun vs => vs ++ [vals p.1]) =
        (p.1, h p.1 ++ [vals p.1]) :: rest.map (fun q => (q.1, h q.1)) := by
      simp [updAssoc]
    rw [hhead,
      foldl_updAssoc_cons Prod.fst (fun p vs => vs ++ [vals p.1]) []
        rest (p.1, h p.1 ++ [vals p.1]) (rest.map (fun q => (q.1, h q.1)))
        hne,
      ih h (List.nodup_cons.mp hnd).2]
    rfl

/-- Folding per-id appends from the empty dict builds the map-formed
singleton lists (ids pairwise distinct). -/
theorem foldl_updAssoc_self_nil {α β : Type} [DecidableEq α]
    (vals : α → β) :
    ∀ ps : List (α × ColumnTransformation),
      (ps.map Prod.fst).Nodup →
      ps.foldl (fun m p => updAssoc m p.1 [] (fun vs => vs ++ [vals p.1]))
          [] =
        ps.map (fun p => (p.1, [vals p.1])) := by
  intro ps
  induction ps with
  | nil =>
    intro _
    rfl
  | cons p rest ih =>
    intro hnd
    have hne : ∀ q ∈ rest, q.1 ≠ p.1 := by
      intro q hq he
      exact (List.nodup_cons.mp hnd).1 (he ▸ List.mem_map_of_mem Prod.fst hq)
    show rest.foldl _ (updAssoc [] p.1 [] (fun vs => vs ++ [vals p.1])) = _
    have hhead : updAssoc ([] : List (α × List β)) p.1 []
        (fun vs => vs ++ [vals p.1]) = [(p.1, [vals p.1])] := rfl
    rw [hhead,
      foldl_updAssoc_cons Prod.fst (fun p vs => vs ++ [vals p.1]) []
        rest (p.1, [vals p.1]) [] hne,
      ih (List.nodup_cons.mp hnd).2]
    rfl

/-- `updAssoc` on a map-formed dict at a present key updates that entry in
place. -/
theorem updAssoc_map_of_mem {κ α : Type} [DecidableEq κ] (dflt : α)
    (g : α → α) (F : κ → α) :
    ∀ (keys : List κ) (key : κ), keys.Nodup → key ∈ keys →
      updAssoc (keys.map (fun k => (k, F k))) key dflt g =
        keys.map (fun k => (k, if k = key then g (F key) else F k)) := by
  intro keys
  induction keys with
  | nil =>
    intro key _ hmem
    cases hmem
  | cons k0 ks ih =>
    intro key hnd hmem
    by_cases h : k0 = key
    · subst h
      have hhead : updAssoc ((k0, F k0) :: ks.map (fun k => (k, F k))) k0
          dflt g = (k0, g (F k0)) :: ks.map (fun k => (k, F k)) := by
        simp [updAssoc]
      show updAssoc ((k0, F k0) :: ks.map (fun k => (k, F k))) k0 dflt g = _
      rw [hhead]
      show _ = (k0, if k0 = k0 then g (F k0) else F k0) ::
        ks.map (fun k => (k, if k = k0 then g (F k0) else F k))
      rw [if_pos rfl]
      have : ks.map (fun k => (k, if k = k0 then g (F k0) else F k)) =
          ks.map (fun k => (k, F k)) := by
        apply List.map_congr_left
        intro k hk
        have hne : ¬ k = k0 := by
          intro he
          exact (List.nodup_cons.mp hnd).1 (by rw [← he]; exact hk)
        rw [if_neg hne]
      rw [this]
    · have hkey : key ∈ ks := by
        rcases List.mem_cons.mp hmem with h1 | h2
        · exact absurd h1.symm h
        · exact h2
      show updAssoc ((k0, F k0) :: ks.map (fun k => (k, F k))) key dflt g = _
      rw [updAssoc_cons_ne (k0, F k0) (ks.map (fun k => (k, F k))) key dflt g
          h,
        ih key (List.nodup_cons.mp hnd).2 hkey]
      show _ = (k0, if k0 = key then g (F key) else F k0) :: _
      rw [if_neg h]

/-- `updAssoc` on a map-formed dict at an absent key appends the new
entry. -/
theorem updAssoc_map_of_notmem {κ α : Type} [DecidableEq κ] (dflt : α)
    (g : α → α) (F : κ → α) :
    ∀ (keys : List κ) (key : κ), key ∉ keys →
      updAssoc (keys.map (fun k => (k, F k))) key dflt g =
        keys.map (fun k => (k, F k)) ++ [(key, g dflt)] := by
  intro keys
  induction keys with
  | nil =>
    intro key _
    rfl
  | cons k0 ks ih =>
    intro key hmem
    have h : k0 ≠ key := fun he => hmem (he ▸ List.mem_cons_self k0 ks)
    show updAssoc ((k0, F k0) :: ks.map (fun k => (k, F k))) key dflt g = _
    rw [updAssoc_cons_ne (k0, F k0) (ks.map (fun k => (k, F k))) key dflt g h,
      ih key (fun hk => hmem (List.mem_cons_of_mem k0 hk))]
    rfl

/-- Membership in the first-occurrence key list. -/
theorem mem_specKeys_foldl (t : Transformation) :
    ∀ (typeds : List Row) (acc : List Row) (k : Row),
      k ∈ typeds.foldl
          (fun acc r =>
            if t.group_key r ∈ acc then acc else acc ++ [t.group_key r])
          acc ↔
        k ∈ acc ∨ ∃ r ∈ typeds, t.group_key r = k := by
  intro typeds
  induction typeds with
  | nil =>
    intro acc k
    simp
  | cons r0 rest ih =>
    intro acc k
    show k ∈ rest.foldl _
        (if t.group_key r0 ∈ acc then acc else acc ++ [t.group_key r0]) ↔ _
    rw [ih]
    by_cases hmem : t.group_key r0 ∈ acc
    · rw [if_pos hmem]
      constructor
      · rintro (h1 | h2)
        · exact Or.inl h1
        · exact Or.inr (by
            obtain ⟨r, hr, he⟩ := h2
            exact ⟨r, List.mem_cons_of_mem r0 hr, he⟩)
      · rintro (h1 | ⟨r, hr, he⟩)
        · exact Or.inl h1
        · rcases List.mem_cons.mp hr with h3 | h4
          · exact Or.inl (by rw [← he, h3]; exact hmem)
          · exact Or.inr ⟨r, h4, he⟩
    · rw [if_neg hmem]
      constructor
      · rintro (h1 | h2)
        · rcases List.mem_append.mp h1 with h3 | h4
          · exact Or.inl h3
          · refine Or.inr ⟨r0, List.mem_cons_self r0 rest, ?_⟩
            rcases List.mem_singleton.mp h4 with h5
            exact h5.symm
        · obtain ⟨r, hr, he⟩ := h2
          exact Or.inr ⟨r, List.mem_cons_of_mem r0 hr, he⟩
      · rintro (h1 | ⟨r, hr, he⟩)
        · exact Or.inl (List.mem_append_left _ h1)
        · rcases List.mem_cons.mp hr with h3 | h4
          · exact Or.inl (List.mem_append_right _
              (List.mem_singleton.mpr (by rw [← he, h3])))
          · exact Or.inr ⟨r, h4, he⟩

/-- The first-occurrence key list has no duplicates. -/
theorem specKeys_foldl_nodup (t : Transformation) :
    ∀ (typeds : List Row) (acc : List Row), acc.Nodup →
      (typeds.foldl
        (fun acc r =>
          if t.group_key r ∈ acc then acc else acc ++ [t.group_key r])
        acc).Nodup := by
  intro typeds
  induction typeds with
  | nil =>
    intro acc h
    exact h
  | cons r0 rest ih =>
    intro acc h
    show (rest.foldl _
      (if t.group_key r0 ∈ acc then acc else acc ++ [t.group_key r0])).Nodup
    by_cases hmem : t.group_key r0 ∈ acc
    · rw [if_pos hmem]
      exact ih acc h
    · rw [if_neg hmem]
      refine ih _ ?_
      simp [List.nodup_append, h, hmem]

theorem specKeys_nodup (t : Transformation) (typeds : List Row) :
    (specKeys t typeds).Nodup :=
  specKeys_foldl_nodup t typeds [] List.nodup_nil

theorem mem_specKeys (t : Transformation) (typeds : List Row) (k : Row) :
    k ∈ specKeys t typeds ↔ ∃ r ∈ typeds, t.group_key r = k := by
  rw [specKeys, mem_specKeys_foldl]
  simp

/-- Appending one typed row extends the key list with its group key iff the
key is new. -/
theorem specKeys_append_one (t : Transformation) (typeds : List Row)
    (typed : Row) :
    specKeys t (typeds ++ [typed]) =
      if t.group_key typed ∈ specKeys t typeds then specKeys t typeds
      else specKeys t typeds ++ [t.group_key typed] := by
  rw [specKeys, List.foldl_append]
  rfl

/-- Appending one typed row appends its value (if it is in the group) to
the collected list. -/
theorem specCollect_append (t : Transformation) (typeds : List Row)
    (typed : Row) (k : Row) (i : String) :
    specCollect t (typeds ++ [typed]) k i =
      specCollect t typeds k i ++
        (if t.group_key typed = k then (alookup typed i).toList else []) := by
  by_cases h : t.group_key typed = k
  · cases hl : alookup typed i <;>
      simp [specCollect, List.filterMap_append, h, hl, Option.toList]
  · simp [specCollect, List.filterMap_append, h]

/-- A collected list is empty when no accepted row carries the key. -/
theorem specCollect_eq_nil (t : Transformation) (typeds : List Row) (k : Row)
    (i : String) (h : ∀ r ∈ typeds, t.group_key r ≠ k) :
    specCollect t typeds k i = [] := by
  rw [specCollect, List.filterMap_eq_nil_iff]
  intro r hr
  rw [if_neg (h r hr)]

/-- The keys after a `pyInsert` are the old keys, possibly extended by the
new one. -/
theorem mem_keys_pyInsert {κ α : Type} [DecidableEq κ] :
    ∀ (l : List (κ × α)) (k : κ) (v : α) (a : κ),
      a ∈ (pyInsert l k v).map Prod.fst ↔ a ∈ l.map Prod.fst ∨ a = k := by
  intro l
  induction l with
  | nil =>
    intro k v a
    simp [pyInsert]
  | cons q t ih =>
    intro k v a
    by_cases h : q.1 = k
    · cases q
      simp_all [pyInsert]
    · cases q
      simp only [pyInsert, if_neg h, List.map_cons, List.mem_cons, ih]
      tauto

/-- `pyInsert` preserves key distinctness. -/
theorem pyInsert_keys_nodup {κ α : Type} [DecidableEq κ] :
    ∀ (l : List (κ × α)) (k : κ) (v : α),
      (l.map Prod.fst).Nodup → ((pyInsert l k v).map Prod.fst).Nodup := by
  intro l
  induction l with
  | nil =>
    intro k v _
    simp [pyInsert]
  | cons q t ih =>
    intro k v hnd
    by_cases h : q.1 = k
    · cases q
      simp_all [pyInsert]
    · cases q with
      | mk qk qv =>
        simp only [pyInsert, if_neg h, List.map_cons, List.nodup_cons]
        simp only [List.map_cons, List.nodup_cons] at hnd
        refine ⟨?_, ih k v hnd.2⟩
        intro hq
        rcases (mem_keys_pyInsert t k v qk).mp hq with h1 | h2
        · exact hnd.1 h1
        · exact h h2

/-- The by-id dict has pairwise-distinct keys. -/
theorem byId_keys_nodup (t : Transformation) :
    (t.col_transformation_by_id.map Prod.fst).Nodup := by
  rw [Transformation.col_transformation_by_id]
  have : ∀ (l : List (String × ColumnTransformation))
      (acc : List (String × ColumnTransformation)),
      (acc.map Prod.fst).Nodup →
      ((l.foldl (fun acc p => pyInsert acc (t.col_id p.1) p.2) acc).map
        Prod.fst).Nodup := by
    intro l
    induction l with
    | nil =>
      intro acc h
      exact h
    | cons p rest ih =>
      intro acc h
      exact ih _ (pyInsert_keys_nodup acc (t.col_id p.1) p.2 h)
  exact this _ [] List.nodup_nil

/-- The aggregated pairs inherit key distinctness from the by-id dict. -/
theorem aggPairs_keys_nodup (t : Transformation) :
    (t.aggPairs.map Prod.fst).Nodup :=
  ((List.filter_sublist _).map Prod.fst).nodup (byId_keys_nodup t)

/-- On a dict with distinct keys, lookup of a member pair's key finds its
value. -/
theorem alookup_eq_of_mem {κ α : Type} [DecidableEq κ] :
    ∀ (l : List (κ × α)) (p : κ × α), (l.map Prod.fst).Nodup → p ∈ l →
      alookup l p.1 = some p.2 := by
  intro l
  induction l with
  | nil =>
    intro p _ hmem
    cases hmem
  | cons q t ih =>
    intro p hnd hmem
    rcases List.mem_cons.mp hmem with h1 | h2
    · subst h1
      cases p
      simp [alookup]
    · cases q with
      | mk qk qv =>
        simp only [List.map_cons, List.nodup_cons] at hnd
        have hne : ¬ qk = p.1 := by
          intro he
          exact hnd.1 (he ▸ List.mem_map_of_mem Prod.fst h2)
        show (if qk = p.1 then some qv else alookup t p.1) = some p.2
        rw [if_neg hne]
        exact ih p hnd.2 h2

/-- A guarded `foldlM` is the `foldlM` of the filtered list. -/
theorem foldlM_guard_filter {σ β : Type} (pred : β → Bool)
    (act : σ → β → Except Err σ) :
    ∀ (l : List β) (d : σ),
      l.foldlM (fun d p => if pred p then act d p else pure d) d =
        (l.filter pred).foldlM act d := by
  intro l
  induction l with
  | nil =>
    intro d
    rfl
  | cons p rest ih =>
    intro d
    by_cases h : pred p
    · have hstep : (p :: rest).foldlM
          (fun d p => if pred p then act d p else pure d) d =
          (if pred p then act d p else pure d) >>= fun d' =>
            rest.foldlM (fun d p => if pred p then act d p else pure d) d' :=
        rfl
      rw [hstep, if_pos h, List.filter_cons_of_pos h]
      cases hact : act d p with
      | error e =>
        rw [err_bind]
        show _ = act d p >>= fun d' => (rest.filter pred).foldlM act d'
        rw [hact, err_bind]
      | ok d' =>
        rw [ok_bind, ih]
        show _ = act d p >>= fun d' => (rest.filter pred).foldlM act d'
        rw [hact, ok_bind]
    · have hstep : (p :: rest).foldlM
          (fun d p => if pred p then act d p else pure d) d =
          (if pred p then act d p else pure d) >>= fun d' =>
            rest.foldlM (fun d p => if pred p then act d p else pure d) d' :=
        rfl
      rw [hstep, if_neg h, List.filter_cons_of_neg h, pure_ok, ok_bind, ih]

/-- Success analysis of the append loop of `take_or_ignore`: the loop
succeeds exactly on the rows carrying every aggregated id, and then equals
the pure fold of the per-group appends. -/
theorem agg_fold_ok_inv (typed : Row) (key : Row) :
    ∀ (ps : List (String × ColumnTransformation))
      (d d1 : Transformation.AggState),
      ps.foldlM
        (fun d p => do
          let v ← Transformation.getRow typed p.1
          pure (updAssoc d key []
            (fun m => updAssoc m p.1 [] (fun vs => vs ++ [v]))))
        d = .ok d1 →
      (∀ p ∈ ps, ∃ v, alookup typed p.1 = some v) ∧
        d1 = ps.foldl
          (fun d p => updAssoc d key []
            (fun m => updAssoc m p.1 []
              (fun vs => vs ++ [(alookup typed p.1).getD (Value.str "")])))
          d := by
  intro ps
  induction ps with
  | nil =>
    intro d d1 h
    refine ⟨fun p hp => absurd hp (List.not_mem_nil p), ?_⟩
    exact (Except.ok.inj h).symm
  | cons p rest ih =>
    intro d d1 h
    have hstep : (p :: rest).foldlM
        (fun d p => do
          let v ← Transformation.getRow typed p.1
          pure (updAssoc d key []
            (fun m => updAssoc m p.1 [] (fun vs => vs ++ [v]))))
        d =
        (Transformation.getRow typed p.1 >>= fun v =>
          pure (updAssoc d key []
            (fun m => updAssoc m p.1 [] (fun vs => vs ++ [v])))) >>=
          fun d' => rest.foldlM
            (fun d p => do
              let v ← Transformation.getRow typed p.1
              pure (updAssoc d key []
                (fun m => updAssoc m p.1 [] (fun vs => vs ++ [v]))))
            d' := rfl
    rw [hstep] at h
    cases hl : alookup typed p.1 with
    | none =>
      rw [show Transformation.getRow typed p.1 = .error .keyError by
          rw [Transformation.getRow, hl], err_bind, err_bind] at h
      cases h
    | some v =>
      rw [show Transformation.getRow typed p.1 = .ok v by
          rw [Transformation.getRow, hl], ok_bind, pure_ok, ok_bind] at h
      obtain ⟨hall, hd1⟩ := ih _ d1 h
      constructor
      · intro q hq
        rcases List.mem_cons.mp hq with h1 | h2
        · exact ⟨v, by rw [h1]; exact hl⟩
        · exact hall q h2
      · rw [hd1]
        show rest.foldl _ _ = rest.foldl _
          (updAssoc d key [] (fun m => updAssoc m p.1 []
            (fun vs => vs ++ [(alookup typed p.1).getD (Value.str "")])))
        rw [hl]


        rfl

/-- One accepted typed row advances the spec-side accumulator: the pure
fold of the per-aggregated-column appends performed by `take_or_ignore`
turns `specD typeds` into `specD (typeds ++ [typed])`. -/
theorem specD_step (t : Transformation) (typeds : List Row) (typed : Row)
    (hagg : t.aggPairs ≠ [])
    (hv : ∀ p ∈ t.aggPairs, ∃ v, alookup typed p.1 = some v) :
    t.aggPairs.foldl
      (fun d p => updAssoc d (t.group_key typed) []
        (fun m => updAssoc m p.1 []
          (fun vs => vs ++ [(alookup typed p.1).getD (Value.str "")])))
      (specD t typeds) = specD t (typeds ++ [typed]) := by
  cases hps : t.aggPairs with
  | nil => exact absurd hps hagg
  | cons p0 ps' =>
    have hndAgg : ((p0 :: ps').map Prod.fst).Nodup := by
      rw [← hps]
      exact aggPairs_keys_nodup t
    have hv' : ∀ p ∈ (p0 :: ps'), ∃ v, alookup typed p.1 = some v :=
      fun p hp => hv p (by rw [hps]; exact hp)
    simp only [specD]
    rw [hps]
    rw [foldl_updAssoc_compose (t.group_key typed)
      ([] : List (String × List Value))
      (fun p => fun m => updAssoc m p.1 []
        (fun vs => vs ++ [(alookup typed p.1).getD (Value.str "")]))
      ps' p0]
    rw [specKeys_append_one]
    by_cases hmem : t.group_key typed ∈ specKeys t typeds
    · rw [if_pos hmem]
      rw [updAssoc_map_of_mem ([] : List (String × List Value))
        (fun a => ps'.foldl
          (fun a p => updAssoc a p.1 []
            (fun vs => vs ++ [(alookup typed p.1).getD (Value.str "")]))
          (updAssoc a p0.1 []
            (fun vs => vs ++ [(alookup typed p0.1).getD (Value.str "")])))
        (fun k => (p0 :: ps').map
          (fun p => (p.1, specCollect t typeds k p.1)))
        (specKeys t typeds) (t.group_key typed)
        (specKeys_nodup t typeds) hmem]
      apply List.map_congr_left
      intro k hk
      by_cases hkk : k = t.group_key typed
      · subst hkk
        rw [if_pos rfl]
        have hself := foldl_updAssoc_self_map
          (fun i => (alookup typed i).getD (Value.str "")) (p0 :: ps')
          (fun i => specCollect t typeds (t.group_key typed) i) hndAgg
        show (t.group_key typed, (p0 :: ps').foldl
            (fun m p => updAssoc m p.1 []
              (fun vs => vs ++ [(alookup typed p.1).getD (Value.str "")]))
            ((p0 :: ps').map
              (fun p => (p.1,
                specCollect t typeds (t.group_key typed) p.1)))) = _
        rw [hself]
        show _ = (t.group_key typed, (p0 :: ps').map
          (fun p => (p.1, specCollect t (typeds ++ [typed])
            (t.group_key typed) p.1)))
        have hmapc : (p0 :: ps').map
            (fun p => (p.1, specCollect t typeds (t.group_key typed) p.1 ++
              [(alookup typed p.1).getD (Value.str "")])) =
            (p0 :: ps').map
              (fun p => (p.1, specCollect t (typeds ++ [typed])
                (t.group_key typed) p.1)) := by
          apply List.map_congr_left
          intro p hp
          obtain ⟨v, hvp⟩ := hv' p hp
          rw [specCollect_append, if_pos rfl, hvp]
          rfl
        rw [hmapc]
      · rw [if_neg hkk]
        show _ = (k, (p0 :: ps').map
          (fun p => (p.1, specCollect t (typeds ++ [typed]) k p.1)))
        have hmapc : (p0 :: ps').map
            (fun p => (p.1, specCollect t (typeds ++ [typed]) k p.1)) =
            (p0 :: ps').map
              (fun p => (p.1, specCollect t typeds k p.1)) := by
          apply List.map_congr_left
          intro p hp
          rw [specCollect_append,
            if_neg (fun he => hkk he.symm), List.append_nil]
        rw [hmapc]
    · rw [if_neg hmem]
      rw [updAssoc_map_of_notmem ([] : List (String × List Value))
        (fun a => ps'.foldl
          (fun a p => updAssoc a p.1 []
            (fun vs => vs ++ [(alookup typed p.1).getD (Value.str "")]))
          (updAssoc a p0.1 []
            (fun vs => vs ++ [(alookup typed p0.1).getD (Value.str "")])))
        (fun k => (p0 :: ps').map
          (fun p => (p.1, specCollect t typeds k p.1)))
        (specKeys t typeds) (t.group_key typed) hmem]
      rw [List.map_append]
      congr 1
      · apply List.map_congr_left
        intro k hk
        have hkk : ¬ t.group_key typed = k := by
          intro he
          exact hmem (by rw [he]; exact hk)
        have hmapc : (p0 :: ps').map
            (fun p => (p.1, specCollect t (typeds ++ [typed]) k p.1)) =
            (p0 :: ps').map
              (fun p => (p.1, specCollect t typeds k p.1)) := by
          apply List.map_congr_left
          intro p hp
          rw [specCollect_append, if_neg hkk, List.append_nil]
        rw [hmapc]
      · have hnone : ∀ r ∈ typeds, t.group_key r ≠ t.group_key typed :=
          fun r hr he =>
            hmem ((mem_specKeys t typeds (t.group_key typed)).mpr ⟨r, hr, he⟩)
        have hnil := foldl_updAssoc_self_nil
          (fun i => (alookup typed i).getD (Value.str "")) (p0 :: ps') hndAgg
        show [(t.group_key typed, (p0 :: ps').foldl
            (fun m p => updAssoc m p.1 []
              (fun vs => vs ++ [(alookup typed p.1).getD (Value.str "")]))
            [])] = _
        rw [hnil]
        show _ = [(t.group_key typed, (p0 :: ps').map
          (fun p => (p.1, specCollect t (typeds ++ [typed])
            (t.group_key typed) p.1)))]
        have hmapc : (p0 :: ps').map
            (fun p => (p.1, specCollect t (typeds ++ [typed])
              (t.group_key typed) p.1)) =
            (p0 :: ps').map
              (fun p => (p.1,
                [(alookup typed p.1).getD (Value.str "")])) := by
          apply List.map_congr_left
          intro p hp
          obtain ⟨v, hvp⟩ := hv' p hp
          rw [specCollect_append, if_pos rfl,
            specCollect_eq_nil t typeds (t.group_key typed) p.1 hnone, hvp]
          rfl
        rw [hmapc]

/-- The ingestion loop refines the spec-side accumulator: starting from
`specD typeds`, a successful run over `rows` ends in `specD` of `typeds`
extended by exactly the accepted prepared rows. -/
theorem process_go (t : Transformation) (hagg : t.aggPairs ≠ []) :
    ∀ (rows : List StrRow) (typeds : List Row)
      (d : Transformation.AggState),
      rows.foldlM t.take_or_ignore (specD t typeds) = .ok d →
      ∃ typeds2, acceptedTyped t rows = .ok typeds2 ∧
        d = specD t (typeds ++ typeds2) := by
  intro rows
  induction rows with
  | nil =>
    intro typeds d h
    refine ⟨[], rfl, ?_⟩
    rw [List.append_nil]
    exact (Except.ok.inj h).symm
  | cons row rest ih =>
    intro typeds d h
    have hstep : (row :: rest).foldlM t.take_or_ignore (specD t typeds) =
        t.take_or_ignore (specD t typeds) row >>= fun d1 =>
          rest.foldlM t.take_or_ignore d1 := rfl
    rw [hstep] at h
    have htio : t.take_or_ignore (specD t typeds) row =
        t.prep_row row >>= fun typed =>
          t.filt typed >>= fun ok =>
            if ok then
              t.col_transformation_by_id.foldlM
                (fun d p =>
                  if t.col_is_agg p.1 then do
                    let v ← Transformation.getRow typed p.1
                    pure (updAssoc d (t.group_key typed) []
                      (fun m => updAssoc m p.1 [] (fun vs => vs ++ [v])))
                  else pure d)
                (specD t typeds)
            else pure (specD t typeds) := rfl
    have haccstep : acceptedTyped t (row :: rest) =
        t.transform row >>= fun o =>
          acceptedTyped t rest >>= fun r =>
            pure (match o with
              | some typed => typed :: r
              | none => r) := rfl
    cases hprep : t.prep_row row with
    | error e =>
      rw [htio, hprep, err_bind, err_bind] at h
      cases h
    | ok typed =>
      rw [htio, hprep, ok_bind] at h
      cases hfilt : t.filt typed with
      | error e =>
        rw [hfilt, err_bind, err_bind] at h
        cases h
      | ok b =>
        rw [hfilt, ok_bind] at h
        have htrans : t.transform row =
            (if b then .ok (some typed) else .ok none) := by
          have hsteptr : t.transform row = t.prep_row row >>= fun typed =>
              t.filt typed >>= fun ok =>
                if ok then pure (some typed) else pure none := rfl
          rw [hsteptr, hprep, ok_bind, hfilt, ok_bind]
          cases b <;> rfl
        cases b with
        | false =>
          rw [if_neg Bool.false_ne_true, pure_ok, ok_bind] at h
          obtain ⟨typeds2, hacc, hd⟩ := ih typeds d h
          refine ⟨typeds2, ?_, hd⟩
          rw [haccstep, htrans, if_neg Bool.false_ne_true, ok_bind, hacc,
            ok_bind]
          rfl
        | true =>
          rw [if_pos rfl,
            foldlM_guard_filter (fun p => t.col_is_agg p.1)
              (fun d p => do
                let v ← Transformation.getRow typed p.1
                pure (updAssoc d (t.group_key typed) []
                  (fun m => updAssoc m p.1 [] (fun vs => vs ++ [v]))))
              t.col_transformation_by_id (specD t typeds),
            ← Transformation.aggPairs] at h
          cases hfold : t.aggPairs.foldlM
              (fun d p => do
                let v ← Transformation.getRow typed p.1
                pure (updAssoc d (t.group_key typed) []
                  (fun m => updAssoc m p.1 [] (fun vs => vs ++ [v]))))
              (specD t typeds) with
          | error e =>
            rw [hfold, err_bind] at h
            cases h
          | ok d1 =>
            rw [hfold, ok_bind] at h
            obtain ⟨hall, hd1⟩ := agg_fold_ok_inv typed (t.group_key typed)
              t.aggPairs (specD t typeds) d1 hfold
            rw [hd1, specD_step t typeds typed hagg hall] at h
            obtain ⟨typeds2, hacc, hd⟩ := ih (typeds ++ [typed]) d h
            refine ⟨typed :: typeds2, ?_, ?_⟩
            · rw [haccstep, htrans, if_pos rfl, ok_bind, hacc, ok_bind]
              rfl
            · rw [List.append_assoc] at hd
              exact hd

/-- `foldlM` over a mapped list folds the composed function. -/
theorem foldlM_map {σ β γ : Type} (g : β → γ) (f : σ → γ → Except Err σ) :
    ∀ (l : List β) (b : σ),
      (l.map g).foldlM f b = l.foldlM (fun b a => f b (g a)) b := by
  intro l
  induction l with
  | nil =>
    intro b
    rfl
  | cons a rest ih =>
    intro b
    show (f b (g a) >>= fun b2 => (rest.map g).foldlM f b2) =
      (f b (g a) >>= fun b2 => rest.foldlM (fun b a => f b (g a)) b2)
    cases f b (g a) with
    | error e => rw [err_bind, err_bind]
    | ok b2 => rw [ok_bind, ok_bind, ih]

/-- `foldlM` only depends on the fold function's values on the list. -/
theorem foldlM_congr {σ β : Type} (f f2 : σ → β → Except Err σ) :
    ∀ l : List β, (∀ (b : σ) (a : β), a ∈ l → f b a = f2 b a) →
      ∀ b : σ, l.foldlM f b = l.foldlM f2 b := by
  intro l
  induction l with
  | nil =>
    intro _ b
    rfl
  | cons a rest ih =>
    intro h b
    have hstep1 : (a :: rest).foldlM f b =
        f b a >>= fun b2 => rest.foldlM f b2 := rfl
    have hstep2 : (a :: rest).foldlM f2 b =
        f2 b a >>= fun b2 => rest.foldlM f2 b2 := rfl
    rw [hstep1, hstep2, h b a (List.mem_cons_self a rest)]
    cases f2 b a with
    | error e => rw [err_bind, err_bind]
    | ok b2 =>
      rw [ok_bind, ok_bind]
      exact ih (fun b c hc => h b c (List.mem_cons_of_mem a hc)) b2

/-- `agg_rows` on the spec-shaped accumulator emits the spec-side rows, key
by key. -/
theorem agg_rows_map_keys (t : Transformation) (typeds : List Row) :
    ∀ ks : List Row,
      t.agg_rows (ks.map (fun k =>
        (k, t.aggPairs.map (fun p => (p.1, specCollect t typeds k p.1))))) =
      specAggRowsGo t typeds ks := by
  intro ks
  induction ks with
  | nil => rfl
  | cons k ks' ih =>
    have hstep : t.agg_rows ((k, t.aggPairs.map
        (fun p => (p.1, specCollect t typeds k p.1))) ::
          ks'.map (fun k => (k, t.aggPairs.map
            (fun p => (p.1, specCollect t typeds k p.1))))) =
        (t.aggPairs.map (fun p => (p.1, specCollect t typeds k p.1))).foldlM
          (fun r q => do
            let ct ← match alookup t.col_transformation_by_id q.1 with
              | some ct => Except.ok ct
              | none => Except.error Err.keyError
            let v ← ct.agg q.2
            pure (pyInsert r q.1 v))
          (k.foldl (fun acc q => pyInsert acc q.1 q.2) []) >>= fun row =>
        t.agg_rows (ks'.map (fun k => (k, t.aggPairs.map
          (fun p => (p.1, specCollect t typeds k p.1))))) >>= fun rs =>
        pure (t.rename_row row :: rs) := rfl
    have hinner : (t.aggPairs.map
        (fun p => (p.1, specCollect t typeds k p.1))).foldlM
          (fun r q => do
            let ct ← match alookup t.col_transformation_by_id q.1 with
              | some ct => Except.ok ct
              | none => Except.error Err.keyError
            let v ← ct.agg q.2
            pure (pyInsert r q.1 v))
          (k.foldl (fun acc q => pyInsert acc q.1 q.2) []) =
        t.aggPairs.foldlM
          (fun r p => do
            let v ← p.2.agg (specCollect t typeds k p.1)
            pure (pyInsert r p.1 v))
          (k.foldl (fun acc q => pyInsert acc q.1 q.2) []) := by
      rw [foldlM_map (fun p => (p.1, specCollect t typeds k p.1))
        (fun r q => do
          let ct ← match alookup t.col_transformation_by_id q.1 with
            | some ct => Except.ok ct
            | none => Except.error Err.keyError
          let v ← ct.agg q.2
          pure (pyInsert r q.1 v))
        t.aggPairs]
      apply foldlM_congr
      intro r p hp
      have hmemId : p ∈ t.col_transformation_by_id :=
        (List.mem_filter.mp hp).1
      have halook : alookup t.col_transformation_by_id p.1 = some p.2 :=
        alookup_eq_of_mem t.col_transformation_by_id p
          (byId_keys_nodup t) hmemId
      dsimp only
      rw [halook]
      rfl
    rw [List.map_cons, hstep, hinner, ih]
    have hsg : specAggRowsGo t typeds (k :: ks') =
        specAggRow t typeds k >>= fun row =>
          specAggRowsGo t typeds ks' >>= fun rest =>
            pure (row :: rest) := rfl
    have hsar : specAggRow t typeds k =
        t.aggPairs.foldlM
          (fun r p => do
            let v ← p.2.agg (specCollect t typeds k p.1)
            pure (pyInsert r p.1 v))
          (k.foldl (fun acc q => pyInsert acc q.1 q.2) []) >>= fun row =>
        pure (t.rename_row row) := rfl
    rw [hsg, hsar]
    cases hF : t.aggPairs.foldlM
        (fun r p => do
          let v ← p.2.agg (specCollect t typeds k p.1)
          pure (pyInsert r p.1 v))
        (k.foldl (fun acc q => pyInsert acc q.1 q.2) []) with
    | error e => rw [err_bind, err_bind, err_bind]
    | ok row => rw [ok_bind, ok_bind, pure_ok, ok_bind]

/-- `agg_rows` of the spec-side accumulator is the spec-side row list. -/
theorem agg_rows_specD (t : Transformation) (typeds : List Row) :
    t.agg_rows (specD t typeds) = specAggRows t typeds := by
  rw [specD, specAggRows]
  exact agg_rows_map_keys t typeds (specKeys t typeds)

/-- Claim C1 (amended): in aggregate mode (at least one aggregated declared
column), a successful run groups the accepted prepared rows under exactly
the key of (identifier, value) pairs of the visible non-aggregated
identifiers, appending each aggregated declared identifier's value to its
group's list in input order; `agg_rows` then yields one row per distinct
group key, in first-occurrence order, in which each non-aggregated
identifier carries its key value and each aggregated identifier carries
`agg` of its collected list — the emitted row being keyed by `_col_rename`
of the identifier (not by the identifier itself). -/
theorem c1_grouping (t : Transformation) (rows : List StrRow)
    (d : Transformation.AggState) (hagg : t.aggPairs ≠ [])
    (hok : t.process rows = .ok d) :
    ∃ typeds, acceptedTyped t rows = .ok typeds ∧
      d = specD t typeds ∧ t.agg_rows d = specAggRows t typeds := by
  have h0 : rows.foldlM t.take_or_ignore (specD t []) = .ok d := hok
  obtain ⟨typeds2, hacc, hd⟩ := process_go t hagg rows [] d h0
  refine ⟨typeds2, hacc, hd, ?_⟩
  rw [hd]
  show t.agg_rows (specD t ([] ++ typeds2)) = _
  rw [List.nil_append]
  exact agg_rows_specD t typeds2

/-- Witness for C1 at concrete inputs. -/
theorem c1_grouping_witness :
    ∃ typeds, acceptedTyped tC1 [[("a", "x"), ("b", "y")]] = .ok typeds ∧
      [([("a", Value.str "x")], [("b", [Value.str "y"])])] =
        specD tC1 typeds ∧
      tC1.agg_rows [([("a", Value.str "x")], [("b", [Value.str "y"])])] =
        specAggRows tC1 typeds :=
  c1_grouping tC1 [[("a", "x"), ("b", "y")]]
    [([("a", Value.str "x")], [("b", [Value.str "y"])])]
    (List.cons_ne_nil _ _) (by decide)

/-! ## Ordering (claim C5)

`Executor.execute_rw` sorts the emitted rows with
`sorted(..., key=transformation.create_key(col_ids))` whenever
`transformation.has_order()`, but neither `has_order` nor `create_key` is
defined anywhere in `src/`; the ordering semantics below is modelled from
the spec's Ordering paragraph and the Rank glossary entry. -/

/-- Modelled from the spec: a three-way comparator from a linear order. -/
def cmpBy {α : Type} [LinearOrder α] (x y : α) : Ordering :=
  if x < y then .lt else if y < x then .gt else .eq

theorem cmpBy_swap {α : Type} [LinearOrder α] (x y : α) :
    cmpBy x y = (cmpBy y x).swap := by
  rcases lt_trichotomy x y with h | h | h
  · rw [cmpBy, if_pos h, cmpBy, if_neg (asymm h), if_pos h]
    rfl
  · subst h
    simp [cmpBy, lt_irrefl x, Ordering.swap]
  · rw [cmpBy, if_neg (asymm h), if_pos h, cmpBy, if_pos h]
    rfl

theorem cmpBy_lt_iff {α : Type} [LinearOrder α] (x y : α) :
    cmpBy x y = .lt ↔ x < y := by
  simp only [cmpBy]
  rcases lt_trichotomy x y with h | h | h
  · simp [h]
  · subst h
    simp [lt_irrefl x]
  · simp [asymm h, h]

theorem cmpBy_eq_iff {α : Type} [LinearOrder α] (x y : α) :
    cmpBy x y = .eq ↔ x = y := by
  simp only [cmpBy]
  rcases lt_trichotomy x y with h | h | h
  · simp [h, ne_of_lt h]
  · subst h
    simp [lt_irrefl x]
  · simp [asymm h, h, (ne_of_lt h).symm]

theorem cmpBy_lt_trans {α : Type} [LinearOrder α] {x y z : α}
    (h1 : cmpBy x y = .lt) (h2 : cmpBy y z = .lt) : cmpBy x z = .lt :=
  (cmpBy_lt_iff x z).mpr
    (lt_trans ((cmpBy_lt_iff x y).mp h1) ((cmpBy_lt_iff y z).mp h2))

/-- Modelled from the spec: the tag rank of a value, ordering mixed-type
comparisons (numbers before strings before booleans) so the composite sort
key is total. -/
def tagIdx : Value → Nat
  | .num _ => 0
  | .str _ => 1
  | .bool _ => 2

/-- Modelled from the spec: a total three-way comparison on values —
payload order within a tag, tag order across tags. -/
def compareValue (a b : Value) : Ordering :=
  match a, b with
  | .num x, .num y => cmpBy x y
  | .str x, .str y => cmpBy x y
  | .bool x, .bool y => cmpBy x y
  | a, b => cmpBy (tagIdx a) (tagIdx b)

theorem compareValue_swap (a b : Value) :
    compareValue a b = (compareValue b a).swap := by
  cases a <;> cases b <;> exact cmpBy_swap _ _

theorem compareValue_eq_iff (a b : Value) :
    compareValue a b = .eq ↔ a = b := by
  cases a <;> cases b <;>
    simp [compareValue, cmpBy_eq_iff, tagIdx]

theorem compareValue_lt_trans {a b c : Value} (h1 : compareValue a b = .lt)
    (h2 : compareValue b c = .lt) : compareValue a c = .lt := by
  cases a <;> cases b <;> cases c <;> first
    | exact cmpBy_lt_trans h1 h2
    | rfl
    | exact Ordering.noConfusion h1
    | exact Ordering.noConfusion h2

/-- Modelled from the spec: one component of the composite key — the value
comparison at a ranked column, reversed when the rank is negative. -/
def rankCmp (rk : Int) (v w : Value) : Ordering :=
  if rk < 0 then (compareValue v w).swap else compareValue v w

theorem rankCmp_swap (rk : Int) (v w : Value) :
    rankCmp rk v w = (rankCmp rk w v).swap := by
  by_cases h : rk < 0
  · rw [rankCmp, if_pos h, rankCmp, if_pos h, compareValue_swap v w]
  · rw [rankCmp, if_neg h, rankCmp, if_neg h]
    exact compareValue_swap v w

theorem rankCmp_eq_iff (rk : Int) (v w : Value) :
    rankCmp rk v w = .eq ↔ v = w := by
  by_cases h : rk < 0
  · rw [rankCmp, if_pos h, ← compareValue_eq_iff v w]
    cases hc : compareValue v w <;> simp [Ordering.swap]
  · rw [rankCmp, if_neg h]
    exact compareValue_eq_iff v w

theorem rankCmp_lt_trans {rk : Int} {u v w : Value}
    (h1 : rankCmp rk u v = .lt) (h2 : rankCmp rk v w = .lt) :
    rankCmp rk u w = .lt := by
  by_cases h : rk < 0
  · rw [rankCmp, if_pos h] at h1 h2 ⊢
    have g1 : compareValue v u = .lt := by
      rw [compareValue_swap v u]
      cases hc : compareValue u v <;> simp_all [Ordering.swap]
    have g2 : compareValue w v = .lt := by
      rw [compareValue_swap w v]
      cases hc : compareValue v w <;> simp_all [Ordering.swap]
    rw [compareValue_swap u w, compareValue_lt_trans g2 g1]
    rfl
  · rw [rankCmp, if_neg h] at h1 h2 ⊢
    exact compareValue_lt_trans h1 h2

/-- The value of an identifier in an emitted row, empty string when absent
(`value_by_id.get(i, "")`). -/
def lookupD (row : Row) (i : String) : Value :=
  (alookup row i).getD (.str "")

/-- Modelled from the spec: the composite key comparison — component
comparisons chained over the ranked columns, first difference wins. -/
def keyCompareGo (r1 r2 : Row) : List (String × Int) → Ordering
  | [] => .eq
  | (i, rk) :: rest =>
    (rankCmp rk (lookupD r1 i) (lookupD r2 i)).then
      (keyCompareGo r1 r2 rest)

/-- Modelled from the spec: stable insertion into a sorted list. -/
def insertBy {α : Type} (le : α → α → Bool) (a : α) : List α → List α
  | [] => [a]
  | b :: l => if le a b then a :: b :: l else b :: insertBy le a l

/-- Modelled from the spec: stable insertion sort (Python's `sorted` is a
stable sort). -/
def sortBy {α : Type} (le : α → α → Bool) : List α → List α
  | [] => []
  | a :: l => insertBy le a (sortBy le l)

/-- Modelled from the spec: the ranked columns ordered by ascending
absolute rank. -/
def rankOrder (ranks : List (String × Int)) : List (String × Int) :=
  sortBy (fun p q => decide (p.2.natAbs ≤ q.2.natAbs)) ranks

/-- Modelled from the spec: the composite key comparison over the ranked
columns in ascending-absolute-rank order. -/
def keyCompare (ranks : List (String × Int)) (r1 r2 : Row) : Ordering :=
  keyCompareGo r1 r2 (rankOrder ranks)

/-- Modelled from the spec: the `sorted(...)` comparison predicate. -/
def rowLe (ranks : List (String × Int)) (r1 r2 : Row) : Bool :=
  match keyCompare ranks r1 r2 with
  | .gt => false
  | _ => true

/-- Modelled from the spec: the ordering step of `execute_rw` — sort the
emitted rows by the composite ranked key when some column declares a rank,
otherwise leave the emission order. -/
def execute_order (ranks : List (String × Int)) (rows : List Row) :
    List Row :=
  if ranks.isEmpty then rows else sortBy (rowLe ranks) rows

theorem keyCompareGo_swap (r1 r2 : Row) :
    ∀ l, keyCompareGo r1 r2 l = (keyCompareGo r2 r1 l).swap := by
  intro l
  induction l with
  | nil => rfl
  | cons q rest ih =>
    cases q with
    | mk i rk =>
      show (rankCmp rk (lookupD r1 i) (lookupD r2 i)).then
          (keyCompareGo r1 r2 rest) =
        ((rankCmp rk (lookupD r2 i) (lookupD r1 i)).then
          (keyCompareGo r2 r1 rest)).swap
      rw [rankCmp_swap rk (lookupD r1 i) (lookupD r2 i), ih]
      cases rankCmp rk (lookupD r2 i) (lookupD r1 i) <;> rfl

theorem keyCompareGo_trans (r1 r2 r3 : Row) :
    ∀ l, keyCompareGo r1 r2 l ≠ .gt → keyCompareGo r2 r3 l ≠ .gt →
      keyCompareGo r1 r3 l ≠ .gt := by
  intro l
  induction l with
  | nil =>
    intro _ _ h
    cases h
  | cons q rest ih =>
    intro h12 h23
    cases q with
    | mk i rk =>
      rw [keyCompareGo] at h12 h23 ⊢
      generalize hA : rankCmp rk (lookupD r1 i) (lookupD r2 i) = A at h12
      cases A with
      | gt => exact absurd rfl h12
      | eq =>
        have hv : lookupD r1 i = lookupD r2 i :=
          (rankCmp_eq_iff rk _ _).mp hA
        rw [hv]
        generalize hB : rankCmp rk (lookupD r2 i) (lookupD r3 i) = B
          at h23 ⊢
        cases B with
        | gt => exact absurd rfl h23
        | eq => exact ih h12 h23
        | lt =>
          intro h
          exact Ordering.noConfusion h
      | lt =>
        generalize hB : rankCmp rk (lookupD r2 i) (lookupD r3 i) = B at h23
        cases B with
        | gt => exact absurd rfl h23
        | eq =>
          have hv : lookupD r2 i = lookupD r3 i :=
            (rankCmp_eq_iff rk _ _).mp hB
          rw [← hv, hA]
          intro h
          exact Ordering.noConfusion h
        | lt =>
          rw [rankCmp_lt_trans hA hB]
          intro h
          exact Ordering.noConfusion h

theorem rowLe_iff (ranks : List (String × Int)) (r1 r2 : Row) :
    rowLe ranks r1 r2 = true ↔ keyCompare ranks r1 r2 ≠ .gt := by
  rw [rowLe]
  cases hc : keyCompare ranks r1 r2 <;> simp [hc]

theorem rowLe_total (ranks : List (String × Int)) (r1 r2 : Row) :
    rowLe ranks r1 r2 = true ∨ rowLe ranks r2 r1 = true := by
  rw [rowLe_iff, rowLe_iff, keyCompare, keyCompare,
    keyCompareGo_swap r2 r1 (rankOrder ranks)]
  cases keyCompareGo r1 r2 (rankOrder ranks) <;> simp [Ordering.swap]

theorem rowLe_trans (ranks : List (String × Int)) (r1 r2 r3 : Row)
    (h1 : rowLe ranks r1 r2 = true) (h2 : rowLe ranks r2 r3 = true) :
    rowLe ranks r1 r3 = true := by
  rw [rowLe_iff] at h1 h2 ⊢
  exact keyCompareGo_trans r1 r2 r3 (rankOrder ranks) h1 h2

theorem insertBy_perm {α : Type} (le : α → α → Bool) (a : α) :
    ∀ l : List α, (insertBy le a l).Perm (a :: l) := by
  intro l
  induction l with
  | nil => exact List.Perm.refl _
  | cons b t ih =>
    rw [insertBy]
    by_cases h : le a b
    · rw [if_pos h]
    · rw [if_neg h]
      exact (ih.cons b).trans (List.Perm.swap a b t)

theorem sortBy_perm {α : Type} (le : α → α → Bool) :
    ∀ l : List α, (sortBy le l).Perm l := by
  intro l
  induction l with
  | nil => exact List.Perm.refl _
  | cons a t ih =>
    exact (insertBy_perm le a (sortBy le t)).trans (ih.cons a)

theorem insertBy_pairwise {α : Type} (le : α → α → Bool)
    (htot : ∀ a b, le a b = true ∨ le b a = true)
    (htrans : ∀ a b c, le a b = true → le b c = true → le a c = true)
    (a : α) :
    ∀ l : List α, l.Pairwise (fun x y => le x y = true) →
      (insertBy le a l).Pairwise (fun x y => le x y = true) := by
  intro l
  induction l with
  | nil =>
    intro _
    exact List.pairwise_singleton _ a
  | cons b t ih =>
    intro hp
    obtain ⟨hb, ht⟩ := List.pairwise_cons.mp hp
    rw [insertBy]
    by_cases h : le a b
    · rw [if_pos h]
      refine List.pairwise_cons.mpr ⟨?_, hp⟩
      intro x hx
      rcases List.mem_cons.mp hx with h1 | h2
      · rw [h1]
        exact h
      · exact htrans a b x h (hb x h2)
    · rw [if_neg h]
      refine List.pairwise_cons.mpr ⟨?_, ih ht⟩
      intro x hx
      rcases (insertBy_perm le a t).mem_iff.mp hx with h1
      rcases List.mem_cons.mp h1 with h2 | h3
      · rw [h2]
        rcases htot a b with h4 | h4
        · exact absurd h4 h
        · exact h4
      · exact hb x h3

theorem sortBy_pairwise {α : Type} (le : α → α → Bool)
    (htot : ∀ a b, le a b = true ∨ le b a = true)
    (htrans : ∀ a b c, le a b = true → le b c = true → le a c = true) :
    ∀ l : List α, (sortBy le l).Pairwise (fun x y => le x y = true) := by
  intro l
  induction l with
  | nil => exact List.Pairwise.nil
  | cons a t ih => exact insertBy_pairwise le htot htrans a (sortBy le t) ih

/-- The composite comparison only reads the ranked identifiers. -/
theorem keyCompareGo_congr :
    ∀ (l : List (String × Int)) (r1 r2 r1' r2' : Row),
      (∀ q ∈ l, lookupD r1 q.1 = lookupD r1' q.1) →
      (∀ q ∈ l, lookupD r2 q.1 = lookupD r2' q.1) →
      keyCompareGo r1 r2 l = keyCompareGo r1' r2' l := by
  intro l
  induction l with
  | nil =>
    intro r1 r2 r1' r2' _ _
    rfl
  | cons q rest ih =>
    intro r1 r2 r1' r2' hv1 hv2
    cases q with
    | mk i rk =>
      rw [keyCompareGo, keyCompareGo,
        hv1 (i, rk) (List.mem_cons_self _ _),
        hv2 (i, rk) (List.mem_cons_self _ _),
        ih r1 r2 r1' r2'
          (fun q hq => hv1 q (List.mem_cons_of_mem _ hq))
          (fun q hq => hv2 q (List.mem_cons_of_mem _ hq))]

/-- Claim C5 (spec-modelled: `has_order` and `create_key` are invoked by
`Executor.execute_rw` but are defined nowhere in `src/`; the ordering is
modelled from the spec's Ordering paragraph): when at least one column
declares a sort rank, the emitted rows are a permutation of the produced
rows sorted (stably) by the composite key over the ranked columns in
ascending-absolute-rank order, each component reversed exactly when its
rank is negative; and the composite comparison depends only on the values
at the ranked identifiers, so unranked columns never influence the
order. -/
theorem c5_ordering (ranks : List (String × Int)) (rows : List Row)
    (hne : ranks ≠ []) :
    (execute_order ranks rows).Perm rows ∧
    (execute_order ranks rows).Pairwise
      (fun r1 r2 => rowLe ranks r1 r2 = true) ∧
    (∀ r1 r2 r1' r2' : Row,
      (∀ q ∈ ranks, lookupD r1 q.1 = lookupD r1' q.1) →
      (∀ q ∈ ranks, lookupD r2 q.1 = lookupD r2' q.1) →
      keyCompare ranks r1 r2 = keyCompare ranks r1' r2') := by
  have hord : execute_order ranks rows = sortBy (rowLe ranks) rows := by
    rw [execute_order, if_neg (by simp [List.isEmpty_iff, hne])]
  refine ⟨?_, ?_, ?_⟩
  · rw [hord]
    exact sortBy_perm (rowLe ranks) rows
  · rw [hord]
    exact sortBy_pairwise (rowLe ranks) (rowLe_total ranks)
      (rowLe_trans ranks) rows
  · intro r1 r2 r1' r2' hv1 hv2
    rw [keyCompare, keyCompare]
    have hperm : (rankOrder ranks).Perm ranks := sortBy_perm _ ranks
    have hmem : ∀ q ∈ rankOrder ranks, q ∈ ranks :=
      fun q hq => hperm.mem_iff.mp hq
    exact keyCompareGo_congr (rankOrder ranks) r1 r2 r1' r2'
      (fun q hq => hv1 q (hmem q hq))
      (fun q hq => hv2 q (hmem q hq))

/-- Witness for C5 at concrete inputs. -/
theorem c5_ordering_witness :
    (execute_order [("b", 2), ("a", -1)]
      [[("a", Value.num 1)], [("a", Value.num 2)]]).Perm
      [[("a", Value.num 1)], [("a", Value.num 2)]] ∧
    (execute_order [("b", 2), ("a", -1)]
      [[("a", Value.num 1)], [("a", Value.num 2)]]).Pairwise
      (fun r1 r2 => rowLe [("b", 2), ("a", -1)] r1 r2 = true) ∧
    (∀ r1 r2 r1' r2' : Row,
      (∀ q ∈ [("b", 2), ("a", -1)], lookupD r1 q.1 = lookupD r1' q.1) →
      (∀ q ∈ [("b", 2), ("a", -1)], lookupD r2 q.1 = lookupD r2' q.1) →
      keyCompare [("b", 2), ("a", -1)] r1 r2 =
        keyCompare [("b", 2), ("a", -1)] r1' r2') :=
  c5_ordering [("b", 2), ("a", -1)]
    [[("a", Value.num 1)], [("a", Value.num 2)]] (by decide)
